import Mathlib

/-!
# Verification of the `shtring` argument splitter

Shallow embedding of the repository's three source files
(`src/lexer.rs`, `src/parser.rs`, `src/lib.rs`) and proofs about it.

Modelling conventions:

* A Rust `&str` is modelled as a `List Char` (a list of Unicode scalar
  values); byte offsets are modelled through `Char.utf8Size`, so that the
  byte indices produced by `char_indices` and consumed by string slicing
  are represented faithfully.
* Rust string slicing `&input[a..b]` panics when `a > b`, or when `a` or
  `b` is not a UTF-8 character boundary of `input`.  It is modelled by
  `byteSlice`, which returns `none` exactly in the panicking cases.  A
  panic aborts the computation, which the step results (`LexOut`,
  `ParseOut`) and the drivers (returning `Option`) propagate.
* Rust `char::is_whitespace` is modelled by Lean's `Char.isWhitespace`.
* The stateful iterators `Lexer` and `Parser` are modelled by explicit
  state passing: the state of a `Lexer` is the not-yet-consumed suffix of
  `input.char_indices()`, a `List (Nat × Char)`; the `Parser` carries no
  state of its own beyond its inner `Lexer`.
* The iterator loops are written with an explicit structural fuel so that
  every definition is executable by the kernel; each public wrapper
  supplies fuel strictly larger than the length of the remaining state,
  which is enough because every loop iteration consumes at least one
  element of the state.  Fuel-irrelevance lemmas below show the fuel
  never runs out at those wrappers.
-/

/-- `Error` from `src/lib.rs`: the two error kinds of the crate.
`UnexpectedToken` wraps the token's byte index and its text. -/
inductive Error : Type
  | UnexpectedEndOfInput : Error
  | UnexpectedToken : Nat → List Char → Error
deriving DecidableEq, Repr

/-- `Token` from `src/lexer.rs`. -/
inductive Token : Type
  | Word : List Char → Token
  | Whitespace : List Char → Token
  | SingleQuote : Token
  | DoubleQuote : Token
  | Escape : List Char → Token
  | UnknownCharacter : Char → Token
deriving DecidableEq, Repr

/-- `Result<α, Error>`, as yielded by both iterators. -/
inductive Res (α : Type) : Type
  | ok : α → Res α
  | err : Error → Res α
deriving DecidableEq, Repr

/-- Total byte length of a string (the Rust `str::len`). -/
def utf8Len (s : List Char) : Nat :=
  (s.map Char.utf8Size).sum

/-- `input.char_indices()` starting from byte offset `ofs`: each character
paired with its byte offset. -/
def charIndicesFrom (ofs : Nat) : List Char → List (Nat × Char)
  | [] => []
  | c :: cs => (ofs, c) :: charIndicesFrom (ofs + c.utf8Size) cs

/-- `input.char_indices()` for the whole input. -/
def charIndices (s : List Char) : List (Nat × Char) :=
  charIndicesFrom 0 s

/-- The UTF-8 character-boundary byte offsets of `s`, shifted by `ofs`
(including the end offset `ofs + utf8Len s`). -/
def offsetsFrom (ofs : Nat) : List Char → List Nat
  | [] => [ofs]
  | c :: cs => ofs :: offsetsFrom (ofs + c.utf8Size) cs

/-- `n` is a character boundary of `input` (in the sense of
`str::is_char_boundary`). -/
def isBoundary (input : List Char) (n : Nat) : Bool :=
  (offsetsFrom 0 input).contains n

/-- The characters of a char-index list whose byte offset lies in `[a, b)`. -/
def sliceFrom (a b : Nat) (cs : List (Nat × Char)) : List Char :=
  (cs.filter (fun p => a ≤ p.1 && p.1 < b)).map (·.2)

/-- Rust string slicing `&input[a..b]`: `none` models the panic on an
invalid range (out of order, or either end not a character boundary). -/
def byteSlice (input : List Char) (a b : Nat) : Option (List Char) :=
  if a ≤ b && isBoundary input a && isBoundary input b then
    some (sliceFrom a b (charIndices input))
  else
    none

/-- The text a token stands for (used for round-trip statements; for the
slice-carrying variants it is the carried slice, for the quote variants the
quote character itself). -/
def tokenText : Token → List Char
  | .Word w => w
  | .Whitespace w => w
  | .Escape w => w
  | .SingleQuote => ['\'']
  | .DoubleQuote => ['"']
  | .UnknownCharacter c => [c]

/-- `Token::len` from `src/lexer.rs` (byte length). -/
def Token.len : Token → Nat
  | .Word w => utf8Len w
  | .Whitespace w => utf8Len w
  | .Escape w => utf8Len w
  | .UnknownCharacter c => c.utf8Size
  | .SingleQuote => 1
  | .DoubleQuote => 1

/-- `is_word_character` from `src/lexer.rs`. -/
def is_word_character (c : Char) : Bool :=
  c ≠ '\'' && c ≠ '"' && c ≠ '\\' && !c.isWhitespace

/-- Outcome of one `Lexer::next` call: `eos` models `None`, `tok`/`err`
model `Some(Ok((idx, token)))` / `Some(Err(e))` together with the Lexer
state after the call, and `panic` models a Rust slicing panic. -/
inductive LexOut : Type
  | panic : LexOut
  | eos : LexOut
  | tok : Nat → Token → List (Nat × Char) → LexOut
  | err : Error → List (Nat × Char) → LexOut
deriving DecidableEq, Repr

/-- The greedy-run loop inside `Lexer::next` (the `loop` with
`self.chars.peek()`): starting from last-offset `e`, consume leading
characters satisfying `p`, returning the offset of the last consumed
character (or `e` if none) and the remaining state. -/
def lexRun (p : Char → Bool) : Nat → List (Nat × Char) → Nat × List (Nat × Char)
  | e, [] => (e, [])
  | e, (cont, c) :: rest =>
    if p c then lexRun p cont rest else (e, (cont, c) :: rest)

/-- `Lexer::next` from `src/lexer.rs`, acting on the remaining
char-indices state `cs` of `input`. -/
def lexNext (input : List Char) : List (Nat × Char) → LexOut
  | [] => .eos
  | (idx, chr) :: rest =>
    if chr = '\'' then .tok idx .SingleQuote rest
    else if chr = '"' then .tok idx .DoubleQuote rest
    else if chr = '\\' then
      match rest with
      | (cont, _) :: rest2 =>
        match byteSlice input idx (cont + 1) with
        | some w => .tok idx (.Escape w) rest2
        | none => .panic
      | [] => .err .UnexpectedEndOfInput []
    else if chr.isWhitespace then
      match byteSlice input idx ((lexRun Char.isWhitespace idx rest).1 + 1) with
      | some w => .tok idx (.Whitespace w) (lexRun Char.isWhitespace idx rest).2
      | none => .panic
    else if is_word_character chr then
      match byteSlice input idx ((lexRun is_word_character idx rest).1 + 1) with
      | some w => .tok idx (.Word w) (lexRun is_word_character idx rest).2
      | none => .panic
    else .tok idx (.UnknownCharacter chr) rest

example : lexNext ['a'] (charIndices ['a']) = .tok 0 (.Word ['a']) [] := by decide
example : lexNext ['h','i',' '] (charIndices ['h','i',' ']) =
    .tok 0 (.Word ['h','i']) [(2, ' ')] := by decide
example : lexNext ['\\'] (charIndices ['\\']) = .err .UnexpectedEndOfInput [] := by decide
example : lexNext ['\\','t'] (charIndices ['\\','t']) =
    .tok 0 (.Escape ['\\','t']) [] := by decide
example : lexNext ['é'] (charIndices ['é']) = .panic := by decide
example : lexNext ['\\','é'] (charIndices ['\\','é']) = .panic := by decide
example : lexNext [' ','\t','a'] (charIndices [' ','\t','a']) =
    .tok 0 (.Whitespace [' ','\t']) [(2, 'a')] := by decide

/-- Outcome of one `Parser::next` call: `eos` models `None`, `ok`/`err`
model `Some(Ok(slice))` / `Some(Err(e))` together with the inner Lexer
state after the call, and `panic` models a Rust slicing panic. -/
inductive ParseOut : Type
  | panic : ParseOut
  | eos : ParseOut
  | ok : List Char → List (Nat × Char) → ParseOut
  | err : Error → List (Nat × Char) → ParseOut
deriving DecidableEq, Repr

/-- The inner unquoted-argument loop of `Parser::next`
(`src/parser.rs` lines 61–73), with structural fuel.  `idx` is the start
offset of the argument's first token. -/
def unquotedLoopF (input : List Char) (idx : Nat) :
    Nat → List (Nat × Char) → ParseOut
  | 0, _ => .panic
  | fuel + 1, cs =>
    match lexNext input cs with
    | .tok cont (.Whitespace _) rest =>
      match byteSlice input idx cont with
      | some w => .ok w rest
      | none => .panic
    | .tok _ (.Word _) rest => unquotedLoopF input idx fuel rest
    | .tok _ (.UnknownCharacter _) rest => unquotedLoopF input idx fuel rest
    | .tok _ (.Escape _) rest => unquotedLoopF input idx fuel rest
    | .tok cont t rest =>
      match byteSlice input cont (cont + t.len) with
      | some w => .err (.UnexpectedToken cont w) rest
      | none => .panic
    | .err e rest => .err e rest
    | .eos =>
      match byteSlice input idx (utf8Len input) with
      | some w => .ok w []
      | none => .panic
    | .panic => .panic

/-- The inner quoted-argument loop of `Parser::next`
(`src/parser.rs` lines 74–83), with structural fuel.  `idx` is the byte
offset of the opening quote and `opening` its token. -/
def quotedLoopF (input : List Char) (idx : Nat) (opening : Token) :
    Nat → List (Nat × Char) → ParseOut
  | 0, _ => .panic
  | fuel + 1, cs =>
    match lexNext input cs with
    | .tok cont q rest =>
      if q = opening then
        match byteSlice input (idx + 1) cont with
        | some w => .ok w rest
        | none => .panic
      else quotedLoopF input idx opening fuel rest
    | .err e rest => .err e rest
    | .eos => .err .UnexpectedEndOfInput []
    | .panic => .panic

/-- The outer loop of `Parser::next` (`src/parser.rs` lines 56–89), with
structural fuel for the whitespace-skipping iteration. -/
def parserNextF (input : List Char) : Nat → List (Nat × Char) → ParseOut
  | 0, _ => .panic
  | fuel + 1, cs =>
    match lexNext input cs with
    | .tok _ (.Whitespace _) rest => parserNextF input fuel rest
    | .tok idx (.Word _) rest => unquotedLoopF input idx (rest.length + 1) rest
    | .tok idx (.UnknownCharacter _) rest => unquotedLoopF input idx (rest.length + 1) rest
    | .tok idx (.Escape _) rest => unquotedLoopF input idx (rest.length + 1) rest
    | .tok idx .SingleQuote rest => quotedLoopF input idx .SingleQuote (rest.length + 1) rest
    | .tok idx .DoubleQuote rest => quotedLoopF input idx .DoubleQuote (rest.length + 1) rest
    | .err e rest => .err e rest
    | .eos => .eos
    | .panic => .panic

/-- The unquoted-argument loop at its canonical fuel. -/
def unquotedLoop (input : List Char) (idx : Nat) (cs : List (Nat × Char)) : ParseOut :=
  unquotedLoopF input idx (cs.length + 1) cs

/-- The quoted-argument loop at its canonical fuel. -/
def quotedLoop (input : List Char) (idx : Nat) (opening : Token)
    (cs : List (Nat × Char)) : ParseOut :=
  quotedLoopF input idx opening (cs.length + 1) cs

/-- One `Parser::next` call on state `cs`. -/
def parserNext (input : List Char) (cs : List (Nat × Char)) : ParseOut :=
  parserNextF input (cs.length + 1) cs

/-- Iterating `Lexer::next` to exhaustion, collecting every yielded item
in order; `none` models a panic along the way. -/
def lexAllF (input : List Char) : Nat → List (Nat × Char) → Option (List (Res (Nat × Token)))
  | 0, _ => none
  | fuel + 1, cs =>
    match lexNext input cs with
    | .eos => some []
    | .panic => none
    | .err e rest => (lexAllF input fuel rest).map (fun l => .err e :: l)
    | .tok idx t rest => (lexAllF input fuel rest).map (fun l => .ok (idx, t) :: l)

/-- All items of the Lexer over `input`, in order. -/
def lexAll (input : List Char) : Option (List (Res (Nat × Token))) :=
  lexAllF input (input.length + 1) (charIndices input)

/-- Iterating `Parser::next` to exhaustion from state `cs`, collecting
every yielded item in order; `none` models a panic along the way. -/
def parseAllF (input : List Char) : Nat → List (Nat × Char) → Option (List (Res (List Char)))
  | 0, _ => none
  | fuel + 1, cs =>
    match parserNext input cs with
    | .eos => some []
    | .panic => none
    | .err e rest => (parseAllF input fuel rest).map (fun l => .err e :: l)
    | .ok s rest => (parseAllF input fuel rest).map (fun l => .ok s :: l)

/-- All remaining items of the Parser from state `cs`, in order. -/
def parseAllFrom (input : List Char) (cs : List (Nat × Char)) :
    Option (List (Res (List Char))) :=
  parseAllF input (cs.length + 1) cs

/-- All items of the Parser over `input`, in order. -/
def parseAll (input : List Char) : Option (List (Res (List Char))) :=
  parseAllFrom input (charIndices input)

/-- The `Iterator::collect::<Result<Vec<_>, _>>` driven by `split`:
push each `Ok` item, stop at the first `Err` item and return it. -/
def collectF (input : List Char) : Nat → List (Nat × Char) → Option (Res (List (List Char)))
  | 0, _ => none
  | fuel + 1, cs =>
    match parserNext input cs with
    | .eos => some (.ok [])
    | .panic => none
    | .err e _ => some (.err e)
    | .ok s rest =>
      match collectF input fuel rest with
      | some (.ok args) => some (.ok (s :: args))
      | other => other

/-- `split` from `src/lib.rs`: `Parser::new(input).collect()`. -/
def split (input : List Char) : Option (Res (List (List Char))) :=
  collectF input (input.length + 1) (charIndices input)

example : parseAll ['a',' ','b'] = some [.ok ['a'], .ok ['b']] := by decide
example : parseAll ['\'','a',' ','b','\''] = some [.ok ['a',' ','b']] := by decide
example : parseAll ['a','"'] = some [.err (.UnexpectedToken 1 ['"'])] := by decide
example : parseAll ['a',' ','b','"',' ','c'] =
    some [.ok ['a'], .err (.UnexpectedToken 3 ['"']), .ok ['c']] := by decide
example : parseAll ['"','a','\''] = some [.err .UnexpectedEndOfInput] := by decide
example : split ['a',' ','"','b',' ','c','"'] =
    some (.ok [['a'], ['b',' ','c']]) := by decide
example : split ['a',' ','b',' ','c','"'] =
    some (.err (.UnexpectedToken 5 ['"'])) := by decide
example : parseAll ['\\','"',' ','a',' ','\\','"'] =
    some [.ok ['\\','"'], .ok ['a'], .ok ['\\','"']] := by decide

/-! ## State-consumption lemmas

Every `Lexer::next` call that yields a token or an error strictly consumes
the char-indices state; these lemmas justify the canonical fuel choices. -/

theorem lexRun_length (p : Char → Bool) (e : Nat) (cs : List (Nat × Char)) :
    (lexRun p e cs).2.length ≤ cs.length := by
  induction cs generalizing e with
  | nil => simp [lexRun]
  | cons hd tl ih =>
    obtain ⟨cont, c⟩ := hd
    simp only [lexRun]
    split
    · exact le_trans (ih cont) (by simp)
    · simp


/-- Exhaustive shape analysis of one `Lexer::next` call: a token strictly
consuming state, the (end-of-input) error with exhausted state, the
end-of-sequence marker on the empty state, or a panic. -/
theorem lexNext_shape (input : List Char) (cs : List (Nat × Char)) :
    (∃ i t rest, lexNext input cs = .tok i t rest ∧ rest.length < cs.length) ∨
    (lexNext input cs = .err .UnexpectedEndOfInput [] ∧ 0 < cs.length) ∨
    (lexNext input cs = .eos ∧ cs = []) ∨
    lexNext input cs = .panic := by
  match cs with
  | [] => exact Or.inr (Or.inr (Or.inl ⟨rfl, rfl⟩))
  | (idx, chr) :: tail =>
    simp only [lexNext]
    split_ifs with h1 h2 h3 h4 h5
    · exact Or.inl ⟨idx, _, tail, rfl, by simp⟩
    · exact Or.inl ⟨idx, _, tail, rfl, by simp⟩
    · match tail with
      | [] => exact Or.inr (Or.inl ⟨rfl, by simp⟩)
      | (cont, c) :: tail2 =>
        simp only
        split
        · exact Or.inl ⟨idx, _, tail2, rfl, by simp; omega⟩
        · exact Or.inr (Or.inr (Or.inr rfl))
    · split
      · exact Or.inl ⟨idx, _, _, rfl, Nat.lt_succ_of_le (lexRun_length _ _ tail)⟩
      · exact Or.inr (Or.inr (Or.inr rfl))
    · split
      · exact Or.inl ⟨idx, _, _, rfl, Nat.lt_succ_of_le (lexRun_length _ _ tail)⟩
      · exact Or.inr (Or.inr (Or.inr rfl))
    · exact Or.inl ⟨idx, _, tail, rfl, by simp⟩

/-- A yielded token strictly consumes the state. -/
theorem lexNext_tok_length {input : List Char} {cs : List (Nat × Char)}
    {i : Nat} {t : Token} {rest : List (Nat × Char)}
    (h : lexNext input cs = .tok i t rest) : rest.length < cs.length := by
  rcases lexNext_shape input cs with ⟨i', t', rest', h', hl⟩ | ⟨h', _⟩ | ⟨h', _⟩ | h'
  · rw [h'] at h; cases h; exact hl
  · rw [h'] at h; cases h
  · rw [h'] at h; cases h
  · rw [h'] at h; cases h

/-- A Lexer error is always `UnexpectedEndOfInput` and always leaves the
lexer exhausted (the only error source is the escape character as the last
code point of the input). -/
theorem lexNext_err_spec {input : List Char} {cs : List (Nat × Char)}
    {e : Error} {rest : List (Nat × Char)}
    (h : lexNext input cs = .err e rest) :
    e = .UnexpectedEndOfInput ∧ rest = [] := by
  rcases lexNext_shape input cs with ⟨i', t', rest', h', hl⟩ | ⟨h', _⟩ | ⟨h', _⟩ | h'
  · rw [h'] at h; cases h
  · rw [h'] at h; cases h; exact ⟨rfl, rfl⟩
  · rw [h'] at h; cases h
  · rw [h'] at h; cases h

/-- A yielded error strictly consumes the state. -/
theorem lexNext_err_length {input : List Char} {cs : List (Nat × Char)}
    {e : Error} {rest : List (Nat × Char)}
    (h : lexNext input cs = .err e rest) : rest.length < cs.length := by
  rcases lexNext_shape input cs with ⟨i', t', rest', h', hl⟩ | ⟨h', hl⟩ | ⟨h', _⟩ | h'
  · rw [h'] at h; cases h
  · rw [h'] at h; cases h; simpa using hl
  · rw [h'] at h; cases h
  · rw [h'] at h; cases h

/-- `Lexer::next` yields the end-of-sequence marker exactly on the empty
state. -/
theorem lexNext_eos_iff {input : List Char} {cs : List (Nat × Char)} :
    lexNext input cs = .eos ↔ cs = [] := by
  constructor
  · intro h
    rcases lexNext_shape input cs with ⟨i', t', rest', h', hl⟩ | ⟨h', _⟩ | ⟨h', hc⟩ | h'
    · rw [h'] at h; cases h
    · rw [h'] at h; cases h
    · exact hc
    · rw [h'] at h; cases h
  · intro h; subst h; rfl

/-! ## Fuel irrelevance

Any fuel strictly larger than the state length computes the same result,
so the canonical-fuel wrappers satisfy the loops' defining equations. -/

theorem unquotedLoopF_irrel (input : List Char) (idx : Nat) :
    ∀ f1 f2 cs, cs.length < f1 → cs.length < f2 →
      unquotedLoopF input idx f1 cs = unquotedLoopF input idx f2 cs := by
  intro f1
  induction f1 with
  | zero => intro f2 cs h1 h2; omega
  | succ a ih =>
    intro f2 cs h1 h2
    match f2 with
    | 0 => omega
    | b + 1 =>
      rcases hx : lexNext input cs with _ | _ | ⟨i, t, rest⟩ | ⟨e, rest⟩
      · simp only [unquotedLoopF, hx]
      · simp only [unquotedLoopF, hx]
      · have hr := lexNext_tok_length hx
        cases t <;> simp only [unquotedLoopF, hx] <;>
          first
            | rfl
            | exact ih b rest (by omega) (by omega)
      · simp only [unquotedLoopF, hx]

theorem quotedLoopF_irrel (input : List Char) (idx : Nat) (opening : Token) :
    ∀ f1 f2 cs, cs.length < f1 → cs.length < f2 →
      quotedLoopF input idx opening f1 cs = quotedLoopF input idx opening f2 cs := by
  intro f1
  induction f1 with
  | zero => intro f2 cs h1 h2; omega
  | succ a ih =>
    intro f2 cs h1 h2
    match f2 with
    | 0 => omega
    | b + 1 =>
      rcases hx : lexNext input cs with _ | _ | ⟨i, t, rest⟩ | ⟨e, rest⟩
      · simp only [quotedLoopF, hx]
      · simp only [quotedLoopF, hx]
      · have hr := lexNext_tok_length hx
        simp only [quotedLoopF, hx]
        split_ifs with hq
        · rfl
        · exact ih b rest (by omega) (by omega)
      · simp only [quotedLoopF, hx]

theorem parserNextF_irrel (input : List Char) :
    ∀ f1 f2 cs, cs.length < f1 → cs.length < f2 →
      parserNextF input f1 cs = parserNextF input f2 cs := by
  intro f1
  induction f1 with
  | zero => intro f2 cs h1 h2; omega
  | succ a ih =>
    intro f2 cs h1 h2
    match f2 with
    | 0 => omega
    | b + 1 =>
      rcases hx : lexNext input cs with _ | _ | ⟨i, t, rest⟩ | ⟨e, rest⟩
      · simp only [parserNextF, hx]
      · simp only [parserNextF, hx]
      · have hr := lexNext_tok_length hx
        cases t <;> simp only [parserNextF, hx] <;>
          first
            | rfl
            | exact ih b rest (by omega) (by omega)
      · simp only [parserNextF, hx]

/-- The Lexer state recorded in a parser step outcome, when there is one. -/
def ParseOut.stateOf : ParseOut → Option (List (Nat × Char))
  | .ok _ rest => some rest
  | .err _ rest => some rest
  | .panic => none
  | .eos => none

theorem unquotedLoopF_state (input : List Char) (idx : Nat) :
    ∀ fuel cs rest, (unquotedLoopF input idx fuel cs).stateOf = some rest →
      rest.length ≤ cs.length := by
  intro fuel
  induction fuel with
  | zero => intro cs rest h; simp [unquotedLoopF, ParseOut.stateOf] at h
  | succ a ih =>
    intro cs rest h
    rcases hx : lexNext input cs with _ | _ | ⟨i, t, rest1⟩ | ⟨e, rest1⟩ <;>
      simp only [unquotedLoopF, hx] at h
    · simp [ParseOut.stateOf] at h
    · split at h
      · simp only [ParseOut.stateOf, Option.some.injEq] at h
        subst h; simp
      · simp [ParseOut.stateOf] at h
    · have hr := lexNext_tok_length hx
      cases t <;> simp only at h
      case Whitespace =>
        split at h
        · simp only [ParseOut.stateOf, Option.some.injEq] at h
          subst h; omega
        · simp [ParseOut.stateOf] at h
      case Word => exact le_trans (ih _ _ h) (by omega)
      case UnknownCharacter => exact le_trans (ih _ _ h) (by omega)
      case Escape => exact le_trans (ih _ _ h) (by omega)
      case SingleQuote =>
        split at h
        · simp only [ParseOut.stateOf, Option.some.injEq] at h
          subst h; omega
        · simp [ParseOut.stateOf] at h
      case DoubleQuote =>
        split at h
        · simp only [ParseOut.stateOf, Option.some.injEq] at h
          subst h; omega
        · simp [ParseOut.stateOf] at h
    · have hr := lexNext_err_length hx
      simp only [ParseOut.stateOf, Option.some.injEq] at h
      subst h; omega

theorem quotedLoopF_state (input : List Char) (idx : Nat) (opening : Token) :
    ∀ fuel cs rest, (quotedLoopF input idx opening fuel cs).stateOf = some rest →
      rest.length ≤ cs.length := by
  intro fuel
  induction fuel with
  | zero => intro cs rest h; simp [quotedLoopF, ParseOut.stateOf] at h
  | succ a ih =>
    intro cs rest h
    rcases hx : lexNext input cs with _ | _ | ⟨i, t, rest1⟩ | ⟨e, rest1⟩ <;>
      simp only [quotedLoopF, hx] at h
    · simp [ParseOut.stateOf] at h
    · simp only [ParseOut.stateOf, Option.some.injEq] at h
      subst h; simp
    · have hr := lexNext_tok_length hx
      split_ifs at h with hq
      · split at h
        · simp only [ParseOut.stateOf, Option.some.injEq] at h
          subst h; omega
        · simp [ParseOut.stateOf] at h
      · exact le_trans (ih _ _ h) (by omega)
    · have hr := lexNext_err_length hx
      simp only [ParseOut.stateOf, Option.some.injEq] at h
      subst h; omega

theorem parserNextF_state (input : List Char) :
    ∀ fuel cs rest, (parserNextF input fuel cs).stateOf = some rest →
      rest.length < cs.length := by
  intro fuel
  induction fuel with
  | zero => intro cs rest h; simp [parserNextF, ParseOut.stateOf] at h
  | succ a ih =>
    intro cs rest h
    rcases hx : lexNext input cs with _ | _ | ⟨i, t, rest1⟩ | ⟨e, rest1⟩ <;>
      simp only [parserNextF, hx] at h
    · simp [ParseOut.stateOf] at h
    · simp [ParseOut.stateOf] at h
    · have hr := lexNext_tok_length hx
      cases t <;> simp only at h
      case Whitespace => exact lt_trans (ih _ _ h) hr
      case Word => exact lt_of_le_of_lt (unquotedLoopF_state input i _ _ _ h) hr
      case UnknownCharacter => exact lt_of_le_of_lt (unquotedLoopF_state input i _ _ _ h) hr
      case Escape => exact lt_of_le_of_lt (unquotedLoopF_state input i _ _ _ h) hr
      case SingleQuote => exact lt_of_le_of_lt (quotedLoopF_state input i _ _ _ _ h) hr
      case DoubleQuote => exact lt_of_le_of_lt (quotedLoopF_state input i _ _ _ _ h) hr
    · have hr := lexNext_err_length hx
      simp only [ParseOut.stateOf, Option.some.injEq] at h
      subst h; exact hr

theorem charIndicesFrom_length (s : List Char) :
    ∀ ofs, (charIndicesFrom ofs s).length = s.length := by
  induction s with
  | nil => intro ofs; rfl
  | cons c cs ih => intro ofs; simp [charIndicesFrom, ih]


/-! ## Defining equations of the canonical-fuel wrappers -/

/-- The unquoted-argument loop satisfies the loop body of
`src/parser.rs` lines 61–73 literally. -/
theorem unquotedLoop_eq (input : List Char) (idx : Nat) (cs : List (Nat × Char)) :
    unquotedLoop input idx cs =
      match lexNext input cs with
      | .tok cont (.Whitespace _) rest =>
        (match byteSlice input idx cont with
         | some w => .ok w rest
         | none => .panic)
      | .tok _ (.Word _) rest => unquotedLoop input idx rest
      | .tok _ (.UnknownCharacter _) rest => unquotedLoop input idx rest
      | .tok _ (.Escape _) rest => unquotedLoop input idx rest
      | .tok cont t rest =>
        (match byteSlice input cont (cont + t.len) with
         | some w => .err (.UnexpectedToken cont w) rest
         | none => .panic)
      | .err e rest => .err e rest
      | .eos =>
        (match byteSlice input idx (utf8Len input) with
         | some w => .ok w []
         | none => .panic)
      | .panic => .panic := by
  rcases hx : lexNext input cs with _ | _ | ⟨i, t, rest⟩ | ⟨e, rest⟩
  · simp only [hx, unquotedLoop, unquotedLoopF]
  · simp only [hx, unquotedLoop, unquotedLoopF]
  · have hr := lexNext_tok_length hx
    have step : ∀ u : Token, lexNext input cs = .tok i u rest →
        unquotedLoopF input idx (cs.length + 1) cs =
          (match u with
           | .Whitespace _ =>
             (match byteSlice input idx i with
              | some w => ParseOut.ok w rest
              | none => ParseOut.panic)
           | .Word _ => unquotedLoopF input idx cs.length rest
           | .UnknownCharacter _ => unquotedLoopF input idx cs.length rest
           | .Escape _ => unquotedLoopF input idx cs.length rest
           | u =>
             (match byteSlice input i (i + u.len) with
              | some w => ParseOut.err (.UnexpectedToken i w) rest
              | none => ParseOut.panic)) := by
      intro u hu
      cases u <;> simp only [unquotedLoopF, hu]
    cases t <;> simp only [hx, unquotedLoop] <;> rw [step _ hx] <;>
      first
        | rfl
        | exact unquotedLoopF_irrel input idx cs.length (rest.length + 1) rest
            (by omega) (by omega)
  · simp only [hx, unquotedLoop, unquotedLoopF]

/-- The quoted-argument loop satisfies the loop body of
`src/parser.rs` lines 74–83 literally. -/
theorem quotedLoop_eq (input : List Char) (idx : Nat) (opening : Token)
    (cs : List (Nat × Char)) :
    quotedLoop input idx opening cs =
      match lexNext input cs with
      | .tok cont q rest =>
        if q = opening then
          (match byteSlice input (idx + 1) cont with
           | some w => .ok w rest
           | none => .panic)
        else quotedLoop input idx opening rest
      | .err e rest => .err e rest
      | .eos => .err .UnexpectedEndOfInput []
      | .panic => .panic := by
  rcases hx : lexNext input cs with _ | _ | ⟨i, t, rest⟩ | ⟨e, rest⟩
  · simp only [hx, quotedLoop, quotedLoopF]
  · simp only [hx, quotedLoop, quotedLoopF]
  · have hr := lexNext_tok_length hx
    have step : quotedLoopF input idx opening (cs.length + 1) cs =
        if t = opening then
          (match byteSlice input (idx + 1) i with
           | some w => ParseOut.ok w rest
           | none => ParseOut.panic)
        else quotedLoopF input idx opening cs.length rest := by
      simp only [quotedLoopF, hx]
    simp only [hx, quotedLoop]
    rw [step]
    split_ifs with hq
    · rfl
    · exact quotedLoopF_irrel input idx opening cs.length (rest.length + 1) rest
        (by omega) (by omega)
  · simp only [hx, quotedLoop, quotedLoopF]

/-- `Parser::next` satisfies its outer loop body
(`src/parser.rs` lines 56–89) literally. -/
theorem parserNext_eq (input : List Char) (cs : List (Nat × Char)) :
    parserNext input cs =
      match lexNext input cs with
      | .tok _ (.Whitespace _) rest => parserNext input rest
      | .tok idx (.Word _) rest => unquotedLoop input idx rest
      | .tok idx (.UnknownCharacter _) rest => unquotedLoop input idx rest
      | .tok idx (.Escape _) rest => unquotedLoop input idx rest
      | .tok idx .SingleQuote rest => quotedLoop input idx .SingleQuote rest
      | .tok idx .DoubleQuote rest => quotedLoop input idx .DoubleQuote rest
      | .err e rest => .err e rest
      | .eos => .eos
      | .panic => .panic := by
  rcases hx : lexNext input cs with _ | _ | ⟨i, t, rest⟩ | ⟨e, rest⟩
  · simp only [hx, parserNext, parserNextF]
  · simp only [hx, parserNext, parserNextF]
  · have hr := lexNext_tok_length hx
    have step : ∀ u : Token, lexNext input cs = .tok i u rest →
        parserNextF input (cs.length + 1) cs =
          (match u with
           | .Whitespace _ => parserNextF input cs.length rest
           | .Word _ => unquotedLoopF input i (rest.length + 1) rest
           | .UnknownCharacter _ => unquotedLoopF input i (rest.length + 1) rest
           | .Escape _ => unquotedLoopF input i (rest.length + 1) rest
           | .SingleQuote => quotedLoopF input i .SingleQuote (rest.length + 1) rest
           | .DoubleQuote => quotedLoopF input i .DoubleQuote (rest.length + 1) rest) := by
      intro u hu
      cases u <;> simp only [parserNextF, hu]
    cases t <;> simp only [hx, parserNext, unquotedLoop, quotedLoop] <;> rw [step _ hx] <;>
      first
        | rfl
        | exact parserNextF_irrel input cs.length (rest.length + 1) rest
            (by omega) (by omega)
  · simp only [hx, parserNext, parserNextF]

/-- If a `Parser::next` call yields an item carrying a continuation state,
that state is strictly shorter. -/
theorem parserNext_state {input : List Char} {cs rest : List (Nat × Char)}
    (h : (parserNext input cs).stateOf = some rest) : rest.length < cs.length :=
  parserNextF_state input (cs.length + 1) cs rest h

theorem parserNext_ok_length {input : List Char} {cs rest : List (Nat × Char)}
    {s : List Char} (h : parserNext input cs = .ok s rest) :
    rest.length < cs.length :=
  parserNext_state (by rw [h]; rfl)

theorem parserNext_err_length {input : List Char} {cs rest : List (Nat × Char)}
    {e : Error} (h : parserNext input cs = .err e rest) :
    rest.length < cs.length :=
  parserNext_state (by rw [h]; rfl)

theorem lexAllF_irrel (input : List Char) :
    ∀ f1 f2 cs, cs.length < f1 → cs.length < f2 →
      lexAllF input f1 cs = lexAllF input f2 cs := by
  intro f1
  induction f1 with
  | zero => intro f2 cs h1 h2; omega
  | succ a ih =>
    intro f2 cs h1 h2
    match f2 with
    | 0 => omega
    | b + 1 =>
      rcases hx : lexNext input cs with _ | _ | ⟨i, t, rest⟩ | ⟨e, rest⟩
      · simp only [lexAllF, hx]
      · simp only [lexAllF, hx]
      · have hr := lexNext_tok_length hx
        simp only [lexAllF, hx, ih b rest (by omega) (by omega)]
      · have hr := lexNext_err_length hx
        simp only [lexAllF, hx, ih b rest (by omega) (by omega)]

/-- All remaining items of the Lexer from state `cs`, in order. -/
def lexAllFrom (input : List Char) (cs : List (Nat × Char)) :
    Option (List (Res (Nat × Token))) :=
  lexAllF input (cs.length + 1) cs

theorem lexAll_eq (input : List Char) :
    lexAll input = lexAllFrom input (charIndices input) := by
  simp only [lexAll, lexAllFrom, charIndices, charIndicesFrom_length]

/-- The Lexer exhaustion driver satisfies its defining equation. -/
theorem lexAllFrom_eq (input : List Char) (cs : List (Nat × Char)) :
    lexAllFrom input cs =
      match lexNext input cs with
      | .eos => some []
      | .panic => none
      | .err e rest => (lexAllFrom input rest).map (fun l => .err e :: l)
      | .tok idx t rest => (lexAllFrom input rest).map (fun l => .ok (idx, t) :: l) := by
  rcases hx : lexNext input cs with _ | _ | ⟨i, t, rest⟩ | ⟨e, rest⟩
  · simp only [hx, lexAllFrom, lexAllF]
  · simp only [hx, lexAllFrom, lexAllF]
  · have hr := lexNext_tok_length hx
    have step : lexAllF input (cs.length + 1) cs =
        (lexAllF input cs.length rest).map (fun l => .ok (i, t) :: l) := by
      simp only [lexAllF, hx]
    simp only [hx, lexAllFrom]
    rw [step, lexAllF_irrel input cs.length (rest.length + 1) rest (by omega) (by omega)]
  · have hr := lexNext_err_length hx
    have step : lexAllF input (cs.length + 1) cs =
        (lexAllF input cs.length rest).map (fun l => .err e :: l) := by
      simp only [lexAllF, hx]
    simp only [hx, lexAllFrom]
    rw [step, lexAllF_irrel input cs.length (rest.length + 1) rest (by omega) (by omega)]

theorem parseAllF_irrel (input : List Char) :
    ∀ f1 f2 cs, cs.length < f1 → cs.length < f2 →
      parseAllF input f1 cs = parseAllF input f2 cs := by
  intro f1
  induction f1 with
  | zero => intro f2 cs h1 h2; omega
  | succ a ih =>
    intro f2 cs h1 h2
    match f2 with
    | 0 => omega
    | b + 1 =>
      rcases hx : parserNext input cs with _ | _ | ⟨s, rest⟩ | ⟨e, rest⟩
      · simp only [parseAllF, hx]
      · simp only [parseAllF, hx]
      · have hr := parserNext_ok_length hx
        simp only [parseAllF, hx, ih b rest (by omega) (by omega)]
      · have hr := parserNext_err_length hx
        simp only [parseAllF, hx, ih b rest (by omega) (by omega)]

/-- The Parser exhaustion driver satisfies its defining equation. -/
theorem parseAllFrom_eq (input : List Char) (cs : List (Nat × Char)) :
    parseAllFrom input cs =
      match parserNext input cs with
      | .eos => some []
      | .panic => none
      | .err e rest => (parseAllFrom input rest).map (fun l => .err e :: l)
      | .ok s rest => (parseAllFrom input rest).map (fun l => .ok s :: l) := by
  rcases hx : parserNext input cs with _ | _ | ⟨s, rest⟩ | ⟨e, rest⟩
  · simp only [hx, parseAllFrom, parseAllF]
  · simp only [hx, parseAllFrom, parseAllF]
  · have hr := parserNext_ok_length hx
    have step : parseAllF input (cs.length + 1) cs =
        (parseAllF input cs.length rest).map (fun l => .ok s :: l) := by
      simp only [parseAllF, hx]
    simp only [hx, parseAllFrom]
    rw [step, parseAllF_irrel input cs.length (rest.length + 1) rest (by omega) (by omega)]
  · have hr := parserNext_err_length hx
    have step : parseAllF input (cs.length + 1) cs =
        (parseAllF input cs.length rest).map (fun l => .err e :: l) := by
      simp only [parseAllF, hx]
    simp only [hx, parseAllFrom]
    rw [step, parseAllF_irrel input cs.length (rest.length + 1) rest (by omega) (by omega)]

theorem collectF_irrel (input : List Char) :
    ∀ f1 f2 cs, cs.length < f1 → cs.length < f2 →
      collectF input f1 cs = collectF input f2 cs := by
  intro f1
  induction f1 with
  | zero => intro f2 cs h1 h2; omega
  | succ a ih =>
    intro f2 cs h1 h2
    match f2 with
    | 0 => omega
    | b + 1 =>
      rcases hx : parserNext input cs with _ | _ | ⟨s, rest⟩ | ⟨e, rest⟩
      · simp only [collectF, hx]
      · simp only [collectF, hx]
      · have hr := parserNext_ok_length hx
        simp only [collectF, hx, ih b rest (by omega) (by omega)]
      · simp only [collectF, hx]

/-- `Parser::collect()` from state `cs`. -/
def collectSplit (input : List Char) (cs : List (Nat × Char)) :
    Option (Res (List (List Char))) :=
  collectF input (cs.length + 1) cs

theorem split_eq (input : List Char) :
    split input = collectSplit input (charIndices input) := by
  simp only [split, collectSplit, charIndices, charIndicesFrom_length]

/-- The `collect` driver behind `split` satisfies its defining equation. -/
theorem collectSplit_eq (input : List Char) (cs : List (Nat × Char)) :
    collectSplit input cs =
      match parserNext input cs with
      | .eos => some (.ok [])
      | .panic => none
      | .err e _ => some (.err e)
      | .ok s rest =>
        (match collectSplit input rest with
         | some (.ok args) => some (.ok (s :: args))
         | other => other) := by
  rcases hx : parserNext input cs with _ | _ | ⟨s, rest⟩ | ⟨e, rest⟩
  · simp only [hx, collectSplit, collectF]
  · simp only [hx, collectSplit, collectF]
  · have hr := parserNext_ok_length hx
    have step : collectF input (cs.length + 1) cs =
        (match collectF input cs.length rest with
         | some (.ok args) => some (.ok (s :: args))
         | other => other) := by
      simp only [collectF, hx]
    simp only [hx, collectSplit]
    rw [step, collectF_irrel input cs.length (rest.length + 1) rest (by omega) (by omega)]
  · simp only [hx, collectSplit, collectF]

/-! ## Byte offsets, boundaries and slices -/

theorem utf8Len_nil : utf8Len [] = 0 := rfl

theorem utf8Len_cons (c : Char) (s : List Char) :
    utf8Len (c :: s) = c.utf8Size + utf8Len s := by
  simp [utf8Len]

theorem utf8Len_append (s t : List Char) :
    utf8Len (s ++ t) = utf8Len s + utf8Len t := by
  simp [utf8Len]

theorem utf8Len_pos {s : List Char} (h : s ≠ []) : 0 < utf8Len s := by
  match s with
  | [] => exact absurd rfl h
  | c :: cs =>
    have := c.utf8Size_pos
    simp [utf8Len_cons]
    omega

theorem charIndicesFrom_append (s t : List Char) :
    ∀ ofs, charIndicesFrom ofs (s ++ t) =
      charIndicesFrom ofs s ++ charIndicesFrom (ofs + utf8Len s) t := by
  induction s with
  | nil => intro ofs; simp [charIndicesFrom, utf8Len_nil]
  | cons c cs ih =>
    intro ofs
    simp only [List.cons_append, charIndicesFrom, List.append_eq, ih, utf8Len_cons,
      List.cons.injEq, true_and]
    rw [← Nat.add_assoc]

theorem charIndicesFrom_map_snd (s : List Char) :
    ∀ ofs, (charIndicesFrom ofs s).map (·.2) = s := by
  induction s with
  | nil => intro ofs; rfl
  | cons c cs ih => intro ofs; simp [charIndicesFrom, ih]

/-- Every entry of `charIndicesFrom ofs s` has its offset in
`[ofs, ofs + utf8Len s)`, and even its whole character span inside. -/
theorem charIndicesFrom_bounds {s : List Char} {o : Nat} {c : Char} :
    ∀ {ofs}, (o, c) ∈ charIndicesFrom ofs s →
      ofs ≤ o ∧ o + c.utf8Size ≤ ofs + utf8Len s := by
  induction s with
  | nil => intro ofs h; simp [charIndicesFrom] at h
  | cons d ds ih =>
    intro ofs h
    simp only [charIndicesFrom, List.mem_cons, Prod.mk.injEq] at h
    rcases h with ⟨rfl, rfl⟩ | h
    · simp only [utf8Len_cons]
      omega
    · have hih := ih h
      have := d.utf8Size_pos
      simp only [utf8Len_cons]
      omega

theorem mem_offsetsFrom_lower {s : List Char} {n : Nat} :
    ∀ {ofs}, n ∈ offsetsFrom ofs s → ofs ≤ n := by
  induction s with
  | nil => intro ofs h; simp [offsetsFrom] at h; omega
  | cons c cs ih =>
    intro ofs h
    simp only [offsetsFrom, List.mem_cons] at h
    rcases h with h | h
    · omega
    · have := ih h
      have := c.utf8Size_pos
      omega

/-- Prefix byte lengths are boundary offsets. -/
theorem mem_offsetsFrom_prefix (p q : List Char) :
    ∀ ofs, ofs + utf8Len p ∈ offsetsFrom ofs (p ++ q) := by
  induction p with
  | nil =>
    intro ofs
    match q with
    | [] => simp [offsetsFrom, utf8Len_nil]
    | c :: cs => simp [offsetsFrom, utf8Len_nil]
  | cons c cs ih =>
    intro ofs
    simp only [List.cons_append, offsetsFrom, List.mem_cons, utf8Len_cons]
    right
    have := ih (ofs + c.utf8Size)
    rwa [Nat.add_assoc] at this

/-- A boundary offset strictly inside the span of the character following
prefix `p` can only be the end of that character. -/
theorem mem_offsetsFrom_between (p : List Char) (c : Char) (s : List Char) :
    ∀ ofs n, n ∈ offsetsFrom ofs (p ++ c :: s) →
      ofs + utf8Len p < n → n ≤ ofs + utf8Len p + c.utf8Size →
      n = ofs + utf8Len p + c.utf8Size := by
  induction p with
  | nil =>
    intro ofs n h h1 h2
    simp only [List.nil_append, offsetsFrom, List.mem_cons, utf8Len_nil,
      Nat.add_zero] at h h1 h2 ⊢
    rcases h with h | h
    · omega
    · have := mem_offsetsFrom_lower h
      omega
  | cons d ds ih =>
    intro ofs n h h1 h2
    simp only [List.cons_append, offsetsFrom, List.mem_cons] at h
    simp only [utf8Len_cons] at h1 h2 ⊢
    rcases h with h | h
    · have := d.utf8Size_pos
      have := utf8Len_pos (s := c :: s) (by simp)
      omega
    · have := ih (ofs + d.utf8Size) n h (by omega) (by omega)
      omega

theorem sliceFrom_append (a b : Nat) (l1 l2 : List (Nat × Char)) :
    sliceFrom a b (l1 ++ l2) = sliceFrom a b l1 ++ sliceFrom a b l2 := by
  simp [sliceFrom]

/-- A block of char-indices lying entirely below the slice window
contributes nothing. -/
theorem sliceFrom_below (a b : Nat) (s : List Char) (ofs : Nat)
    (h : ofs + utf8Len s ≤ a) : sliceFrom a b (charIndicesFrom ofs s) = [] := by
  rw [sliceFrom, List.filter_eq_nil_iff.2, List.map_nil]
  intro x hx
  obtain ⟨o, c⟩ := x
  have hb := charIndicesFrom_bounds hx
  have := c.utf8Size_pos
  simp only [Bool.and_eq_true, decide_eq_true_eq, not_and, Bool.not_eq_true]
  intro hao
  exfalso
  omega

/-- A block of char-indices lying entirely above the slice window
contributes nothing. -/
theorem sliceFrom_above (a b : Nat) (s : List Char) (ofs : Nat)
    (h : b ≤ ofs) : sliceFrom a b (charIndicesFrom ofs s) = [] := by
  rw [sliceFrom, List.filter_eq_nil_iff.2, List.map_nil]
  intro x hx
  obtain ⟨o, c⟩ := x
  have hb := charIndicesFrom_bounds hx
  simp only [Bool.and_eq_true, decide_eq_true_eq, not_and, Bool.not_eq_true]
  intro hao
  simp only [decide_eq_false_iff_not, not_lt]
  omega

/-- A block of char-indices lying entirely inside the slice window is kept
verbatim. -/
theorem sliceFrom_inside (a b : Nat) (s : List Char) (ofs : Nat)
    (h1 : a ≤ ofs) (h2 : ofs + utf8Len s ≤ b) :
    sliceFrom a b (charIndicesFrom ofs s) = s := by
  rw [sliceFrom, List.filter_eq_self.2, charIndicesFrom_map_snd]
  intro x hx
  obtain ⟨o, c⟩ := x
  have hb := charIndicesFrom_bounds hx
  have := c.utf8Size_pos
  simp only [Bool.and_eq_true, decide_eq_true_eq]
  omega

/-- The workhorse: slicing the input at the byte range of a middle block
returns exactly that block. -/
theorem byteSlice_eq (p m s : List Char) :
    byteSlice (p ++ m ++ s) (utf8Len p) (utf8Len p + utf8Len m) = some m := by
  have hba : isBoundary (p ++ m ++ s) (utf8Len p) = true := by
    simp only [isBoundary, List.contains_eq_any_beq, List.any_eq_true]
    refine ⟨utf8Len p, ?_, by simp⟩
    have := mem_offsetsFrom_prefix p (m ++ s) 0
    simpa [List.append_assoc] using this
  have hbb : isBoundary (p ++ m ++ s) (utf8Len p + utf8Len m) = true := by
    simp only [isBoundary, List.contains_eq_any_beq, List.any_eq_true]
    refine ⟨utf8Len p + utf8Len m, ?_, by simp⟩
    have := mem_offsetsFrom_prefix (p ++ m) s 0
    simpa [List.append_assoc, utf8Len_append] using this
  rw [byteSlice,
    if_pos (by simp only [Bool.and_eq_true, decide_eq_true_eq]; exact ⟨⟨by omega, hba⟩, hbb⟩)]
  congr 1
  have hsplit : charIndices (p ++ m ++ s) =
      charIndicesFrom 0 p ++ charIndicesFrom (utf8Len p) m
        ++ charIndicesFrom (utf8Len p + utf8Len m) s := by
    rw [charIndices, charIndicesFrom_append, charIndicesFrom_append, utf8Len_append,
      Nat.zero_add, Nat.zero_add]
  rw [hsplit, sliceFrom_append, sliceFrom_append,
    sliceFrom_below _ _ p 0 (by omega),
    sliceFrom_inside _ _ m (utf8Len p) (by omega) (by omega),
    sliceFrom_above _ _ s (utf8Len p + utf8Len m) (by omega)]
  simp

/-! ## Character classes and single-step unfolding of the Lexer -/

theorem is_word_character_spec {c : Char} (h : is_word_character c = true) :
    ¬(c = '\'') ∧ ¬(c = '"') ∧ ¬(c = '\\') ∧ c.isWhitespace = false := by
  simp only [is_word_character, Bool.and_eq_true, bne_iff_ne, ne_eq,
    Bool.not_eq_true', decide_eq_true_eq] at h
  tauto

theorem is_word_character_of_classes {c : Char} (h1 : ¬(c = '\'')) (h2 : ¬(c = '"'))
    (h3 : ¬(c = '\\')) (h4 : c.isWhitespace = false) :
    is_word_character c = true := by
  simp only [is_word_character, Bool.and_eq_true, bne_iff_ne, ne_eq,
    Bool.not_eq_true', decide_eq_true_eq]
  tauto

theorem isWhitespace_spec {c : Char} (h : c.isWhitespace = true) :
    ¬(c = '\'') ∧ ¬(c = '"') ∧ ¬(c = '\\') ∧ c.utf8Size = 1 := by
  have hc : c = ' ' ∨ c = '\t' ∨ c = '\r' ∨ c = '\n' := by
    have hd := h
    simp only [Char.isWhitespace, Bool.or_eq_true, decide_eq_true_eq] at hd
    tauto
  rcases hc with rfl | rfl | rfl | rfl <;>
    exact ⟨by decide, by decide, by decide, by decide⟩

theorem lexNext_cons_squote (input : List Char) (idx : Nat)
    (rest : List (Nat × Char)) :
    lexNext input ((idx, '\'') :: rest) = .tok idx .SingleQuote rest := by
  simp [lexNext]

theorem lexNext_cons_dquote (input : List Char) (idx : Nat)
    (rest : List (Nat × Char)) :
    lexNext input ((idx, '"') :: rest) = .tok idx .DoubleQuote rest := by
  simp [lexNext]

theorem lexNext_cons_escape (input : List Char) (idx : Nat)
    (rest : List (Nat × Char)) :
    lexNext input ((idx, '\\') :: rest) =
      match rest with
      | (cont, _) :: rest2 =>
        (match byteSlice input idx (cont + 1) with
         | some w => .tok idx (.Escape w) rest2
         | none => .panic)
      | [] => .err .UnexpectedEndOfInput [] := by
  simp [lexNext]

theorem lexNext_cons_ws (input : List Char) (idx : Nat) (chr : Char)
    (rest : List (Nat × Char)) (h : chr.isWhitespace = true) :
    lexNext input ((idx, chr) :: rest) =
      match byteSlice input idx ((lexRun Char.isWhitespace idx rest).1 + 1) with
      | some w => .tok idx (.Whitespace w) (lexRun Char.isWhitespace idx rest).2
      | none => .panic := by
  obtain ⟨h1, h2, h3, _⟩ := isWhitespace_spec h
  simp only [lexNext, if_neg h1, if_neg h2, if_neg h3, h, if_pos]

theorem lexNext_cons_word (input : List Char) (idx : Nat) (chr : Char)
    (rest : List (Nat × Char)) (h : is_word_character chr = true) :
    lexNext input ((idx, chr) :: rest) =
      match byteSlice input idx ((lexRun is_word_character idx rest).1 + 1) with
      | some w => .tok idx (.Word w) (lexRun is_word_character idx rest).2
      | none => .panic := by
  obtain ⟨h1, h2, h3, h4⟩ := is_word_character_spec h
  simp only [lexNext, if_neg h1, if_neg h2, if_neg h3, h4, Bool.false_eq_true,
    if_false, h, if_pos]

/-- The greedy run characterised through `takeWhile`/`dropWhile`: either no
character qualifies, or the run consumes exactly `takeWhile p`, ends at the
offset of its last character, and leaves `dropWhile p`. -/
theorem lexRun_sound (p : Char → Bool) (s : List Char) :
    ∀ ofs e,
      (s.takeWhile p = [] ∧
        lexRun p e (charIndicesFrom ofs s) = (e, charIndicesFrom ofs s)) ∨
      (∃ u cl, s.takeWhile p = u ++ [cl] ∧
        lexRun p e (charIndicesFrom ofs s) =
          (ofs + utf8Len u,
           charIndicesFrom (ofs + utf8Len u + cl.utf8Size) (s.dropWhile p))) := by
  induction s with
  | nil => intro ofs e; left; exact ⟨rfl, rfl⟩
  | cons c s' ih =>
    intro ofs e
    by_cases hc : p c = true
    · right
      have hrun : lexRun p e (charIndicesFrom ofs (c :: s')) =
          lexRun p ofs (charIndicesFrom (ofs + c.utf8Size) s') := by
        simp [charIndicesFrom, lexRun, hc]
      rcases ih (ofs + c.utf8Size) ofs with ⟨htw, hres⟩ | ⟨u, cl, htw, hres⟩
      · refine ⟨[], c, ?_, ?_⟩
        · simp [List.takeWhile_cons, hc, htw]
        · rw [hrun, hres]
          have hdw : s'.dropWhile p = s' := by
            have := List.takeWhile_append_dropWhile (p := p) (l := s')
            rwa [htw, List.nil_append] at this
          simp [List.dropWhile_cons, hc, hdw, utf8Len_nil]
      · refine ⟨c :: u, cl, ?_, ?_⟩
        · simp [List.takeWhile_cons, hc, htw]
        · rw [hrun, hres]
          simp only [List.dropWhile_cons, hc, if_pos, utf8Len_cons]
          rw [Nat.add_assoc]
    · left
      constructor
      · simp [List.takeWhile_cons, hc]
      · simp [charIndicesFrom, lexRun, hc]

theorem byteSlice_some_cond {input : List Char} {a b : Nat} {w : List Char}
    (h : byteSlice input a b = some w) :
    a ≤ b ∧ isBoundary input a = true ∧ isBoundary input b = true := by
  by_cases hc : (decide (a ≤ b) && isBoundary input a && isBoundary input b) = true
  · simp only [Bool.and_eq_true, decide_eq_true_eq] at hc
    tauto
  · rw [byteSlice, if_neg hc] at h
    cases h

theorem isBoundary_mem {input : List Char} {n : Nat}
    (h : isBoundary input n = true) : n ∈ offsetsFrom 0 input := by
  simp only [isBoundary, List.contains_eq_any_beq, List.any_eq_true,
    beq_iff_eq] at h
  obtain ⟨x, hx, rfl⟩ := h
  exact hx

/-- A boundary lying strictly inside the span of the character after
prefix `pre` is exactly the end of that character. -/
theorem isBoundary_between {pre : List Char} {c : Char} {s : List Char} {n : Nat}
    (h : isBoundary (pre ++ c :: s) n = true)
    (h1 : utf8Len pre < n) (h2 : n ≤ utf8Len pre + c.utf8Size) :
    n = utf8Len pre + c.utf8Size := by
  have hm := isBoundary_mem h
  have := mem_offsetsFrom_between pre c s 0 n (by simpa using hm) (by omega) (by omega)
  omega

/-- What a successful slice at the end of a greedy run tells us: the final
consumed character is one byte long, the slice is exactly the run
(head character plus `takeWhile`), and the remaining state is the genuine
state after it. -/
theorem run_slice_spec (pre : List Char) (c : Char) (s' : List Char)
    (p : Char → Bool) (hp : p c = true) {w : List Char}
    (hbs : byteSlice (pre ++ c :: s') (utf8Len pre)
        ((lexRun p (utf8Len pre) (charIndicesFrom (utf8Len pre + c.utf8Size) s')).1 + 1)
      = some w) :
    w = c :: s'.takeWhile p ∧
    (lexRun p (utf8Len pre) (charIndicesFrom (utf8Len pre + c.utf8Size) s')).2
      = charIndicesFrom (utf8Len pre + utf8Len w) (s'.dropWhile p) ∧
    c :: s' = w ++ s'.dropWhile p := by
  rcases lexRun_sound p s' (utf8Len pre + c.utf8Size) (utf8Len pre) with
    ⟨htw, hres⟩ | ⟨u, cl, htw, hres⟩
  · have hdw : s'.dropWhile p = s' := by
      have := List.takeWhile_append_dropWhile (p := p) (l := s')
      rwa [htw, List.nil_append] at this
    rw [hres] at hbs
    have hcond := byteSlice_some_cond hbs
    have hsz : utf8Len pre + 1 = utf8Len pre + c.utf8Size :=
      isBoundary_between hcond.2.2 (by omega) (by have := c.utf8Size_pos; omega)
    have hkey := byteSlice_eq pre [c] s'
    have hin : pre ++ [c] ++ s' = pre ++ c :: s' := by simp
    rw [hin] at hkey
    have hlen : utf8Len pre + utf8Len [c] = utf8Len pre + 1 := by
      simp only [utf8Len_cons, utf8Len_nil]
      omega
    rw [hlen] at hkey
    rw [hkey] at hbs
    obtain rfl : w = [c] := by injection hbs with hbs; exact hbs.symm
    refine ⟨by simp [htw], ?_, by simp [hdw]⟩
    have hofs : utf8Len pre + c.utf8Size = utf8Len pre + utf8Len [c] := by
      simp only [utf8Len_cons, utf8Len_nil]
      omega
    rw [hres, ← hofs, hdw]
  · have hsplit : s' = (u ++ [cl]) ++ s'.dropWhile p := by
      conv_lhs => rw [← List.takeWhile_append_dropWhile (p := p) (l := s')]
      rw [htw]
    rw [hres] at hbs
    have hcond := byteSlice_some_cond hbs
    have hin2 : pre ++ c :: s' = (pre ++ c :: u) ++ cl :: s'.dropWhile p := by
      conv_lhs => rw [hsplit]
      simp
    have hb2 : isBoundary ((pre ++ c :: u) ++ cl :: s'.dropWhile p)
        (utf8Len pre + c.utf8Size + utf8Len u + 1) = true := by
      rw [← hin2]
      exact hcond.2.2
    have hlen2 : utf8Len (pre ++ c :: u) = utf8Len pre + c.utf8Size + utf8Len u := by
      simp [utf8Len_append, utf8Len_cons]
      omega
    have hsz : utf8Len pre + c.utf8Size + utf8Len u + 1
        = utf8Len pre + c.utf8Size + utf8Len u + cl.utf8Size := by
      have hbet := isBoundary_between hb2 (by omega) (by have := cl.utf8Size_pos; omega)
      omega
    have hkey := byteSlice_eq pre (c :: u ++ [cl]) (s'.dropWhile p)
    have hinkey : pre ++ (c :: u ++ [cl]) ++ s'.dropWhile p = pre ++ c :: s' := by
      conv_rhs => rw [hsplit]
      simp
    have hlenkey : utf8Len pre + utf8Len (c :: u ++ [cl])
        = utf8Len pre + c.utf8Size + utf8Len u + 1 := by
      simp only [utf8Len_cons, utf8Len_append, utf8Len_nil]
      omega
    rw [hinkey, hlenkey] at hkey
    rw [hkey] at hbs
    obtain rfl : w = c :: u ++ [cl] := by injection hbs with hbs; exact hbs.symm
    refine ⟨by simp [htw], ?_, ?_⟩
    · have hofs : utf8Len pre + c.utf8Size + utf8Len u + cl.utf8Size
          = utf8Len pre + utf8Len (c :: u ++ [cl]) := by
        simp only [utf8Len_cons, utf8Len_append, utf8Len_nil]
        omega
      rw [hres, hofs]
    · conv_lhs => rw [hsplit]
      simp

/-- Soundness of one Lexer step on a genuine state: a yielded token starts
at the current byte offset, its text is a nonempty prefix of the remaining
characters, and the returned state is the genuine state just after it. -/
theorem lexNext_tok_spec {pre s : List Char} {i : Nat} {t : Token}
    {rest : List (Nat × Char)}
    (h : lexNext (pre ++ s) (charIndicesFrom (utf8Len pre) s) = .tok i t rest) :
    i = utf8Len pre ∧ ∃ s', s = tokenText t ++ s' ∧ tokenText t ≠ [] ∧
      rest = charIndicesFrom (utf8Len pre + utf8Len (tokenText t)) s' := by
  match s with
  | [] => simp [charIndicesFrom, lexNext] at h
  | c :: s0 =>
    simp only [charIndicesFrom] at h
    by_cases hq1 : c = '\''
    · subst hq1
      rw [lexNext_cons_squote] at h
      cases h
      exact ⟨rfl, s0, rfl, by simp [tokenText],
        by simp [tokenText, utf8Len_cons, utf8Len_nil]⟩
    · by_cases hq2 : c = '"'
      · subst hq2
        rw [lexNext_cons_dquote] at h
        cases h
        exact ⟨rfl, s0, rfl, by simp [tokenText],
          by simp [tokenText, utf8Len_cons, utf8Len_nil]⟩
      · by_cases hq3 : c = '\\'
        · subst hq3
          rw [lexNext_cons_escape] at h
          have hsz0 : ('\\' : Char).utf8Size = 1 := by decide
          rw [hsz0] at h
          match s0 with
          | [] =>
            simp only [charIndicesFrom] at h
            simp at h
          | c2 :: s1 =>
            simp only [charIndicesFrom] at h
            rcases hbs : byteSlice (pre ++ '\\' :: c2 :: s1) (utf8Len pre)
                (utf8Len pre + 1 + 1) with _ | w
            · rw [hbs] at h
              simp at h
            · rw [hbs] at h
              cases h
              have hin2 : pre ++ '\\' :: c2 :: s1
                  = (pre ++ ['\\']) ++ c2 :: s1 := by simp
              have hlenpre : utf8Len (pre ++ ['\\'])
                  = utf8Len pre + 1 := by
                simp [utf8Len_append, utf8Len_cons, utf8Len_nil, hsz0]
              have hb2 : isBoundary ((pre ++ ['\\']) ++ c2 :: s1)
                  (utf8Len pre + 1 + 1) = true := by
                rw [← hin2]
                exact (byteSlice_some_cond hbs).2.2
              have hbet := isBoundary_between hb2 (by omega)
                (by have := c2.utf8Size_pos; omega)
              have hszc2 : c2.utf8Size = 1 := by omega
              have hkey := byteSlice_eq pre ['\\', c2] s1
              have hinkey : pre ++ ['\\', c2] ++ s1
                  = pre ++ '\\' :: c2 :: s1 := by simp
              have hlenkey : utf8Len pre + utf8Len ['\\', c2]
                  = utf8Len pre + 1 + 1 := by
                simp only [utf8Len_cons, utf8Len_nil, hszc2, hsz0]
              rw [hinkey, hlenkey] at hkey
              obtain rfl : w = ['\\', c2] := Option.some.inj (hbs.symm.trans hkey)
              refine ⟨rfl, s1, by simp [tokenText], by simp [tokenText], ?_⟩
              simp only [tokenText]
              congr 1
              simp only [utf8Len_cons, utf8Len_nil]
              omega
        · by_cases hws : c.isWhitespace = true
          · rw [lexNext_cons_ws _ _ _ _ hws] at h
            rcases hbs : byteSlice (pre ++ c :: s0) (utf8Len pre)
                ((lexRun Char.isWhitespace (utf8Len pre)
                  (charIndicesFrom (utf8Len pre + c.utf8Size) s0)).1 + 1) with _ | w
            · rw [hbs] at h
              simp at h
            · rw [hbs] at h
              cases h
              obtain ⟨hw1, hw2, hw3⟩ := run_slice_spec pre c s0 Char.isWhitespace hws hbs
              exact ⟨rfl, s0.dropWhile Char.isWhitespace, by simpa [tokenText] using hw3,
                by simp [tokenText, hw1], by simpa [tokenText] using hw2⟩
          · by_cases hwd : is_word_character c = true
            · rw [lexNext_cons_word _ _ _ _ hwd] at h
              rcases hbs : byteSlice (pre ++ c :: s0) (utf8Len pre)
                  ((lexRun is_word_character (utf8Len pre)
                    (charIndicesFrom (utf8Len pre + c.utf8Size) s0)).1 + 1) with _ | w
              · rw [hbs] at h
                simp at h
              · rw [hbs] at h
                cases h
                obtain ⟨hw1, hw2, hw3⟩ :=
                  run_slice_spec pre c s0 is_word_character hwd hbs
                exact ⟨rfl, s0.dropWhile is_word_character,
                  by simpa [tokenText] using hw3,
                  by simp [tokenText, hw1], by simpa [tokenText] using hw2⟩
            · exact absurd
                (is_word_character_of_classes hq1 hq2 hq3
                  (by simpa using hws)) hwd

/-- Positive run lemma: the greedy loop consumes exactly `u ++ [cl]` when
all of it satisfies `p` and the head of `v` does not. -/
theorem lexRun_app (p : Char → Bool) (u : List Char) (cl : Char) (v : List Char)
    (hu : ∀ c ∈ u, p c = true) (hcl : p cl = true)
    (hv : ∀ d v', v = d :: v' → p d = false) :
    ∀ ofs e, lexRun p e (charIndicesFrom ofs (u ++ cl :: v)) =
      (ofs + utf8Len u, charIndicesFrom (ofs + utf8Len u + cl.utf8Size) v) := by
  induction u with
  | nil =>
    intro ofs e
    simp only [List.nil_append, charIndicesFrom, lexRun, utf8Len_nil, Nat.add_zero]
    rw [if_pos hcl]
    match v with
    | [] => simp [charIndicesFrom, lexRun]
    | d :: v' =>
      have hd := hv d v' rfl
      simp [charIndicesFrom, lexRun, hd]
  | cons c cs ih =>
    intro ofs e
    simp only [List.cons_append, charIndicesFrom, lexRun, utf8Len_cons,
      List.append_eq]
    rw [if_pos (hu c (by simp))]
    have hrec := ih (fun x hx => hu x (by simp [hx])) (ofs + c.utf8Size) ofs
    rw [hrec]
    have h1 : ofs + c.utf8Size + utf8Len cs = ofs + (c.utf8Size + utf8Len cs) := by
      omega
    rw [h1]

/-- Generic positive step lemma for the two greedy-run arms of
`Lexer::next`: on a genuine state whose remaining characters start with the
run `u ++ [cl]` (all satisfying `p`, the following character not, and the
final run character one byte long), the step yields the run token. -/
theorem lexNext_run_pos (p : Char → Bool) (mk : List Char → Token)
    (hstep : ∀ input idx chr rest, p chr = true →
      lexNext input ((idx, chr) :: rest) =
        match byteSlice input idx ((lexRun p idx rest).1 + 1) with
        | some w => .tok idx (mk w) (lexRun p idx rest).2
        | none => .panic)
    (pre u : List Char) (cl : Char) (v : List Char)
    (hu : ∀ c ∈ u ++ [cl], p c = true) (hcl : cl.utf8Size = 1)
    (hv : ∀ d v', v = d :: v' → p d = false) :
    lexNext (pre ++ ((u ++ [cl]) ++ v))
        (charIndicesFrom (utf8Len pre) ((u ++ [cl]) ++ v)) =
      .tok (utf8Len pre) (mk (u ++ [cl]))
        (charIndicesFrom (utf8Len pre + utf8Len (u ++ [cl])) v) := by
  match u with
  | [] =>
    simp only [List.nil_append, List.singleton_append, charIndicesFrom,
      List.append_eq]
    rw [hstep _ _ _ _ (hu cl (by simp))]
    have hrun : lexRun p (utf8Len pre)
        (charIndicesFrom (utf8Len pre + cl.utf8Size) v)
        = (utf8Len pre, charIndicesFrom (utf8Len pre + cl.utf8Size) v) := by
      match v with
      | [] => simp [charIndicesFrom, lexRun]
      | d :: v' =>
        have hd := hv d v' rfl
        simp [charIndicesFrom, lexRun, hd]
    simp only [hrun]
    have hkey := byteSlice_eq pre [cl] v
    have hin : pre ++ [cl] ++ v = pre ++ cl :: v := by simp
    have hlen : utf8Len pre + utf8Len [cl] = utf8Len pre + 1 := by
      simp [utf8Len_cons, utf8Len_nil, hcl]
    rw [hin, hlen] at hkey
    rw [hkey]
    have hofs : utf8Len pre + cl.utf8Size = utf8Len pre + utf8Len [cl] := by
      simp [utf8Len_cons, utf8Len_nil]
    rw [← hofs]
  | c :: u' =>
    have hstate : charIndicesFrom (utf8Len pre) (((c :: u') ++ [cl]) ++ v)
        = (utf8Len pre, c) ::
          charIndicesFrom (utf8Len pre + c.utf8Size) (u' ++ cl :: v) := by
      simp [charIndicesFrom]
    rw [hstate, hstep _ _ _ _ (hu c (by simp))]
    have hrun := lexRun_app p u' cl v (fun x hx => hu x (by simp [hx]))
      (hu cl (by simp)) hv (utf8Len pre + c.utf8Size) (utf8Len pre)
    simp only [hrun]
    have hkey := byteSlice_eq pre ((c :: u') ++ [cl]) v
    have hin : pre ++ ((c :: u') ++ [cl]) ++ v
        = pre ++ ((c :: u') ++ [cl] ++ v) := by simp
    have hlen : utf8Len pre + utf8Len ((c :: u') ++ [cl])
        = utf8Len pre + c.utf8Size + utf8Len u' + 1 := by
      simp only [utf8Len_append, utf8Len_cons, utf8Len_nil, hcl]
      omega
    rw [hin, hlen] at hkey
    rw [hkey]
    have hofs : utf8Len pre + c.utf8Size + utf8Len u' + cl.utf8Size
        = utf8Len pre + utf8Len ((c :: u') ++ [cl]) := by
      simp only [utf8Len_append, utf8Len_cons, utf8Len_nil]
      omega
    rw [hofs]

/-- Positive whitespace step on a genuine state. -/
theorem lexNext_ws_pos (pre u : List Char) (cl : Char) (v : List Char)
    (hu : ∀ c ∈ u ++ [cl], c.isWhitespace = true)
    (hv : ∀ d v', v = d :: v' → d.isWhitespace = false) :
    lexNext (pre ++ ((u ++ [cl]) ++ v))
        (charIndicesFrom (utf8Len pre) ((u ++ [cl]) ++ v)) =
      .tok (utf8Len pre) (.Whitespace (u ++ [cl]))
        (charIndicesFrom (utf8Len pre + utf8Len (u ++ [cl])) v) :=
  lexNext_run_pos Char.isWhitespace .Whitespace
    (fun input idx chr rest hc => lexNext_cons_ws input idx chr rest hc)
    pre u cl v hu ((isWhitespace_spec (hu cl (by simp))).2.2.2) hv

/-- Positive word step on a genuine state (the final run character must be
one byte long, otherwise the step panics). -/
theorem lexNext_word_pos (pre u : List Char) (cl : Char) (v : List Char)
    (hu : ∀ c ∈ u ++ [cl], is_word_character c = true) (hcl : cl.utf8Size = 1)
    (hv : ∀ d v', v = d :: v' → is_word_character d = false) :
    lexNext (pre ++ ((u ++ [cl]) ++ v))
        (charIndicesFrom (utf8Len pre) ((u ++ [cl]) ++ v)) =
      .tok (utf8Len pre) (.Word (u ++ [cl]))
        (charIndicesFrom (utf8Len pre + utf8Len (u ++ [cl])) v) :=
  lexNext_run_pos is_word_character .Word
    (fun input idx chr rest hc => lexNext_cons_word input idx chr rest hc)
    pre u cl v hu hcl hv

theorem lexNext_squote_pos (pre v : List Char) :
    lexNext (pre ++ '\'' :: v) (charIndicesFrom (utf8Len pre) ('\'' :: v)) =
      .tok (utf8Len pre) .SingleQuote (charIndicesFrom (utf8Len pre + 1) v) := by
  simp only [charIndicesFrom]
  rw [lexNext_cons_squote]
  have h1 : ('\'' : Char).utf8Size = 1 := by decide
  rw [h1]

theorem lexNext_dquote_pos (pre v : List Char) :
    lexNext (pre ++ '"' :: v) (charIndicesFrom (utf8Len pre) ('"' :: v)) =
      .tok (utf8Len pre) .DoubleQuote (charIndicesFrom (utf8Len pre + 1) v) := by
  simp only [charIndicesFrom]
  rw [lexNext_cons_dquote]
  have h1 : ('"' : Char).utf8Size = 1 := by decide
  rw [h1]

/-- The quoted-argument loop only ever fails with `UnexpectedEndOfInput`,
and when it does the lexer is exhausted. -/
theorem quotedLoop_err_spec (input : List Char) (idx : Nat) (opening : Token) :
    ∀ cs e rest, quotedLoop input idx opening cs = .err e rest →
      e = .UnexpectedEndOfInput ∧ rest = [] := by
  have H : ∀ n cs, cs.length < n → ∀ e rest,
      quotedLoop input idx opening cs = .err e rest →
        e = .UnexpectedEndOfInput ∧ rest = [] := by
    intro n
    induction n with
    | zero => intro cs h; omega
    | succ a ih =>
      intro cs hlen e rest h
      rw [quotedLoop_eq] at h
      rcases hx : lexNext input cs with _ | _ | ⟨i, t, r⟩ | ⟨e', r⟩
      · simp only [hx] at h; cases h
      · simp only [hx] at h; cases h; exact ⟨rfl, rfl⟩
      · simp only [hx] at h
        split_ifs at h with hq
        · split at h <;> cases h
        · exact ih r (by have := lexNext_tok_length hx; omega) e rest h
      · simp only [hx] at h
        cases h
        exact lexNext_err_spec hx
  exact fun cs e rest h => H (cs.length + 1) cs (by omega) e rest h

/-- The quoted-argument loop never yields the end-of-sequence marker: an
open quote always produces an item. -/
theorem quotedLoopF_ne_eos (input : List Char) (idx : Nat) (opening : Token) :
    ∀ fuel cs, quotedLoopF input idx opening fuel cs ≠ .eos := by
  intro fuel
  induction fuel with
  | zero => intro cs h; cases h
  | succ a ih =>
    intro cs h
    rcases hx : lexNext input cs with _ | _ | ⟨i, t, r⟩ | ⟨e', r⟩ <;>
      simp only [quotedLoopF, hx] at h
    · cases h
    · cases h
    · split_ifs at h with hq
      · split at h <;> cases h
      · exact ih r h
    · cases h

/-- The unquoted-argument loop never yields the end-of-sequence marker: a
pending word always produces an item. -/
theorem unquotedLoopF_ne_eos (input : List Char) (idx : Nat) :
    ∀ fuel cs, unquotedLoopF input idx fuel cs ≠ .eos := by
  intro fuel
  induction fuel with
  | zero => intro cs h; cases h
  | succ a ih =>
    intro cs h
    rcases hx : lexNext input cs with _ | _ | ⟨i, t, r⟩ | ⟨e', r⟩ <;>
      simp only [unquotedLoopF, hx] at h
    · cases h
    · split at h <;> cases h
    · cases t <;> simp only at h
      case Word => exact ih r h
      case UnknownCharacter => exact ih r h
      case Escape => exact ih r h
      case Whitespace => split at h <;> cases h
      case SingleQuote => split at h <;> cases h
      case DoubleQuote => split at h <;> cases h
    · cases h

theorem takeWhile_mem_prop (p : Char → Bool) :
    ∀ (l : List Char) x, x ∈ l.takeWhile p → p x = true := by
  intro l
  induction l with
  | nil => intro x h; simp [List.takeWhile] at h
  | cons c cs ih =>
    intro x h
    rw [List.takeWhile_cons] at h
    by_cases hc : p c = true
    · rw [if_pos hc] at h
      rcases List.mem_cons.1 h with rfl | h2
      · exact hc
      · exact ih x h2
    · rw [if_neg hc] at h
      simp at h
  
theorem dropWhile_head_false (p : Char → Bool) :
    ∀ (l : List Char) d v', l.dropWhile p = d :: v' → p d = false := by
  intro l
  induction l with
  | nil => intro d v' h; cases h
  | cons c cs ih =>
    intro d v' h
    rw [List.dropWhile_cons] at h
    by_cases hc : p c = true
    · rw [if_pos hc] at h
      exact ih d v' h
    · rw [if_neg hc] at h
      cases h
      simpa using hc

theorem length_dropWhile_le (p : Char → Bool) :
    ∀ l : List Char, (l.dropWhile p).length ≤ l.length := by
  intro l
  induction l with
  | nil => simp [List.dropWhile]
  | cons c cs ih =>
    rw [List.dropWhile_cons]
    by_cases hc : p c = true
    · rw [if_pos hc]
      simp only [List.length_cons]
      omega
    · rw [if_neg hc]

/-- `Parser::next` on a genuine state yields the terminal `None` marker
exactly when nothing but whitespace remains to be consumed; in particular
it never yields `None` while any argument or error is still pending. -/
theorem parserNext_eos_iff (pre s : List Char) :
    parserNext (pre ++ s) (charIndicesFrom (utf8Len pre) s) = .eos ↔
      ∀ c ∈ s, c.isWhitespace = true := by
  have H : ∀ n (pre s : List Char), s.length < n →
      ((parserNext (pre ++ s) (charIndicesFrom (utf8Len pre) s) = .eos) ↔
        ∀ c ∈ s, c.isWhitespace = true) := by
    intro n
    induction n with
    | zero => intro pre s h; omega
    | succ a ih =>
      intro pre s hlen
      match s with
      | [] =>
        constructor
        · intro _ c hc; simp at hc
        · intro _
          rw [parserNext_eq]
          rfl
      | c :: s0 =>
        by_cases hws : c.isWhitespace = true
        · rcases List.eq_nil_or_concat (c :: s0.takeWhile Char.isWhitespace) with
            hbad | ⟨u, cl, hdec⟩
          · cases hbad
          · rw [List.concat_eq_append] at hdec
            have hseq : c :: s0 = (u ++ [cl]) ++ s0.dropWhile Char.isWhitespace := by
              rw [← hdec]
              simp only [List.cons_append, List.cons.injEq, true_and]
              exact (List.takeWhile_append_dropWhile (p := Char.isWhitespace)
                (l := s0)).symm
            have hu : ∀ x ∈ u ++ [cl], x.isWhitespace = true := by
              intro x hx
              rw [← hdec] at hx
              rcases List.mem_cons.1 hx with rfl | hx2
              · exact hws
              · exact takeWhile_mem_prop Char.isWhitespace s0 x hx2
            have hv : ∀ d v', s0.dropWhile Char.isWhitespace = d :: v' →
                d.isWhitespace = false :=
              fun d v' hd => dropWhile_head_false Char.isWhitespace s0 d v' hd
            have hstep := lexNext_ws_pos pre u cl
              (s0.dropWhile Char.isWhitespace) hu hv
            have hlen2 : (s0.dropWhile Char.isWhitespace).length < a := by
              have h1 := length_dropWhile_le Char.isWhitespace s0
              simp only [List.length_cons] at hlen
              omega
            have hiv := ih (pre ++ (u ++ [cl])) (s0.dropWhile Char.isWhitespace) hlen2
            have happ : (pre ++ (u ++ [cl])) ++ s0.dropWhile Char.isWhitespace
                = pre ++ ((u ++ [cl]) ++ s0.dropWhile Char.isWhitespace) := by simp
            have hofs : utf8Len (pre ++ (u ++ [cl]))
                = utf8Len pre + utf8Len (u ++ [cl]) := utf8Len_append _ _
            rw [happ, hofs] at hiv
            rw [hseq, parserNext_eq]
            simp only [hstep]
            rw [hiv]
            constructor
            · intro h x hx
              rcases List.mem_append.1 hx with hx | hx
              · exact hu x hx
              · exact h x hx
            · intro h x hx
              exact h x (List.mem_append.2 (Or.inr hx))
        · have hne : parserNext (pre ++ c :: s0)
              (charIndicesFrom (utf8Len pre) (c :: s0)) ≠ .eos := by
            intro heos
            rw [parserNext_eq] at heos
            simp only [charIndicesFrom] at heos
            by_cases h1 : c = '\''
            · subst h1
              simp only [lexNext_cons_squote] at heos
              exact quotedLoopF_ne_eos _ _ _ _ _ heos
            · by_cases h2 : c = '"'
              · subst h2
                simp only [lexNext_cons_dquote] at heos
                exact quotedLoopF_ne_eos _ _ _ _ _ heos
              · by_cases h3 : c = '\\'
                · subst h3
                  simp only [lexNext_cons_escape] at heos
                  match s0, heos with
                  | [], heos => simp only [charIndicesFrom] at heos; cases heos
                  | c2 :: s1, heos =>
                    simp only [charIndicesFrom] at heos
                    rcases hbs : byteSlice (pre ++ '\\' :: c2 :: s1) (utf8Len pre)
                        (utf8Len pre + '\\'.utf8Size + 1) with _ | w
                    · rw [hbs] at heos
                      simp at heos
                    · rw [hbs] at heos
                      simp only at heos
                      exact unquotedLoopF_ne_eos _ _ _ _ heos
                · have hwd := is_word_character_of_classes h1 h2 h3
                    (by simpa using hws)
                  simp only [lexNext_cons_word _ _ _ _ hwd] at heos
                  rcases hbs : byteSlice (pre ++ c :: s0) (utf8Len pre)
                      ((lexRun is_word_character (utf8Len pre)
                        (charIndicesFrom (utf8Len pre + c.utf8Size) s0)).1 + 1)
                    with _ | w
                  · rw [hbs] at heos
                    simp at heos
                  · rw [hbs] at heos
                    simp only at heos
                    exact unquotedLoopF_ne_eos _ _ _ _ heos
          constructor
          · intro h
            exact absurd h hne
          · intro hall
            exact absurd (hall c (by simp)) (by simpa using hws)
  exact H (s.length + 1) pre s (by omega)

theorem takeWhile_mem_orig (p : Char → Bool) :
    ∀ (l : List Char) x, x ∈ l.takeWhile p → x ∈ l := by
  intro l
  induction l with
  | nil => intro x h; simpa [List.takeWhile] using h
  | cons c cs ih =>
    intro x h
    rw [List.takeWhile_cons] at h
    by_cases hc : p c = true
    · rw [if_pos hc] at h
      rcases List.mem_cons.1 h with rfl | h2
      · simp
      · simp [ih x h2]
    · rw [if_neg hc] at h
      simp at h

/-- When the head of `tail` falsifies `p`, a greedy run over `l ++ tail`
stays inside `l`. -/
theorem takeWhile_append_stop (p : Char → Bool) (tail : List Char)
    (htail : ∀ d t', tail = d :: t' → p d = false) :
    ∀ l : List Char, (l ++ tail).takeWhile p = l.takeWhile p ∧
      (l ++ tail).dropWhile p = l.dropWhile p ++ tail := by
  intro l
  induction l with
  | nil =>
    simp only [List.nil_append, List.takeWhile_nil, List.dropWhile_nil]
    match tail with
    | [] => simp
    | d :: t' =>
      have hd := htail d t' rfl
      simp [List.takeWhile_cons, List.dropWhile_cons, hd]
  | cons c cs ih =>
    simp only [List.cons_append, List.takeWhile_cons, List.dropWhile_cons]
    by_cases hc : p c = true
    · simp only [if_pos hc]
      exact ⟨by rw [ih.1], by rw [ih.2]⟩
    · simp only [if_neg hc]
      exact ⟨by trivial, by trivial⟩

/-- One step of the quoted-argument loop across content: a content
character (not the closing quote character, not the escape character, all
one byte) starts a token that the loop skips, consuming a nonempty prefix
of the content. -/
theorem quotedLoop_step_consume (pre : List Char) (idx : Nat) (qc : Char)
    (qt : Token)
    (hq : (qc = '\'' ∧ qt = Token.SingleQuote) ∨ (qc = '"' ∧ qt = Token.DoubleQuote))
    (c : Char) (mrest tail : List Char)
    (htail : ∀ d t', tail = d :: t' →
      is_word_character d = false ∧ d.isWhitespace = false)
    (hc1 : ¬(c = qc)) (hc2 : ¬(c = '\\'))
    (hgood : ∀ x ∈ c :: mrest, x.utf8Size = 1) :
    ∃ w mrest', c :: mrest = w ++ mrest' ∧ w ≠ [] ∧
      quotedLoop (pre ++ (c :: mrest ++ tail))
          idx qt (charIndicesFrom (utf8Len pre) (c :: mrest ++ tail)) =
        quotedLoop (pre ++ (c :: mrest ++ tail))
          idx qt (charIndicesFrom (utf8Len pre + utf8Len w) (mrest' ++ tail)) := by
  by_cases hsq : c = '\''
  · -- single quote content character (so the opening quote is a double quote)
    subst hsq
    obtain ⟨hqc, hqt⟩ : qc = '"' ∧ qt = Token.DoubleQuote := by
      rcases hq with ⟨rfl, rfl⟩ | ⟨rfl, rfl⟩
      · exact absurd rfl hc1
      · exact ⟨rfl, rfl⟩
    refine ⟨['\''], mrest, by simp, by simp, ?_⟩
    conv_lhs => rw [quotedLoop_eq]
    have hstep := lexNext_squote_pos pre (mrest ++ tail)
    simp only [List.cons_append, hstep]
    rw [if_neg (by rw [hqt]; simp)]
    have h1 : utf8Len pre + 1 = utf8Len pre + utf8Len ['\''] := by
      have hsz : ('\'' : Char).utf8Size = 1 := by decide
      simp only [utf8Len_cons, utf8Len_nil, hsz]
    rw [h1]
  · by_cases hdq : c = '"'
    · subst hdq
      obtain ⟨hqc, hqt⟩ : qc = '\'' ∧ qt = Token.SingleQuote := by
        rcases hq with ⟨rfl, rfl⟩ | ⟨rfl, rfl⟩
        · exact ⟨rfl, rfl⟩
        · exact absurd rfl hc1
      refine ⟨['"'], mrest, by simp, by simp, ?_⟩
      conv_lhs => rw [quotedLoop_eq]
      have hstep := lexNext_dquote_pos pre (mrest ++ tail)
      simp only [List.cons_append, hstep]
      rw [if_neg (by rw [hqt]; simp)]
      have h1 : utf8Len pre + 1 = utf8Len pre + utf8Len ['"'] := by
        have hsz : ('"' : Char).utf8Size = 1 := by decide
        simp only [utf8Len_cons, utf8Len_nil, hsz]
      rw [h1]
    · by_cases hws : c.isWhitespace = true
      · -- whitespace run
        have hsplit := takeWhile_append_stop Char.isWhitespace tail
          (fun d t' hd => ((htail d t' hd).2)) mrest
        rcases List.eq_nil_or_concat (c :: mrest.takeWhile Char.isWhitespace) with
          hbad | ⟨u, cl, hdec⟩
        · cases hbad
        · rw [List.concat_eq_append] at hdec
          refine ⟨u ++ [cl], mrest.dropWhile Char.isWhitespace, ?_, by simp, ?_⟩
          · rw [← hdec]
            simp only [List.cons_append, List.cons.injEq, true_and]
            exact (List.takeWhile_append_dropWhile
              (p := Char.isWhitespace) (l := mrest)).symm
          · have hu : ∀ x ∈ u ++ [cl], x.isWhitespace = true := by
              intro x hx
              rw [← hdec] at hx
              rcases List.mem_cons.1 hx with rfl | hx2
              · exact hws
              · exact takeWhile_mem_prop Char.isWhitespace mrest x hx2
            have hv : ∀ d v', mrest.dropWhile Char.isWhitespace ++ tail = d :: v' →
                d.isWhitespace = false := by
              intro d v' hd
              match hmt : mrest.dropWhile Char.isWhitespace with
              | [] =>
                rw [hmt, List.nil_append] at hd
                exact (htail d _ hd).2
              | e :: t2 =>
                rw [hmt, List.cons_append] at hd
                cases hd
                exact dropWhile_head_false Char.isWhitespace mrest d t2 hmt
            have hstep := lexNext_ws_pos pre u cl
              (mrest.dropWhile Char.isWhitespace ++ tail) hu hv
            have hseq2 : (u ++ [cl]) ++ (mrest.dropWhile Char.isWhitespace ++ tail)
                = c :: mrest ++ tail := by
              rw [← List.append_assoc, ← hdec]
              simp only [List.cons_append, List.append_assoc, List.cons.injEq, true_and]
              rw [← List.append_assoc, List.takeWhile_append_dropWhile]
            rw [hseq2] at hstep
            conv_lhs => rw [quotedLoop_eq]
            simp only [hstep]
            rw [if_neg (by rcases hq with ⟨_, rfl⟩ | ⟨_, rfl⟩ <;> simp)]
      · -- word run
        have hwd : is_word_character c = true :=
          is_word_character_of_classes hsq hdq hc2 (by simpa using hws)
        have hsplit := takeWhile_append_stop is_word_character tail
          (fun d t' hd => ((htail d t' hd).1)) mrest
        rcases List.eq_nil_or_concat (c :: mrest.takeWhile is_word_character) with
          hbad | ⟨u, cl, hdec⟩
        · cases hbad
        · rw [List.concat_eq_append] at hdec
          refine ⟨u ++ [cl], mrest.dropWhile is_word_character, ?_, by simp, ?_⟩
          · rw [← hdec]
            simp only [List.cons_append, List.cons.injEq, true_and]
            exact (List.takeWhile_append_dropWhile
              (p := is_word_character) (l := mrest)).symm
          · have hu : ∀ x ∈ u ++ [cl], is_word_character x = true := by
              intro x hx
              rw [← hdec] at hx
              rcases List.mem_cons.1 hx with rfl | hx2
              · exact hwd
              · exact takeWhile_mem_prop is_word_character mrest x hx2
            have hclsz : cl.utf8Size = 1 := by
              apply hgood
              have : cl ∈ u ++ [cl] := by simp
              rw [← hdec] at this
              rcases List.mem_cons.1 this with rfl | hx2
              · simp
              · simp [takeWhile_mem_orig is_word_character mrest cl hx2]
            have hv : ∀ d v', mrest.dropWhile is_word_character ++ tail = d :: v' →
                is_word_character d = false := by
              intro d v' hd
              match hmt : mrest.dropWhile is_word_character with
              | [] =>
                rw [hmt, List.nil_append] at hd
                exact (htail d _ hd).1
              | e :: t2 =>
                rw [hmt, List.cons_append] at hd
                cases hd
                exact dropWhile_head_false is_word_character mrest d t2 hmt
            have hstep := lexNext_word_pos pre u cl
              (mrest.dropWhile is_word_character ++ tail) hu hclsz hv
            have hseq2 : (u ++ [cl]) ++ (mrest.dropWhile is_word_character ++ tail)
                = c :: mrest ++ tail := by
              rw [← List.append_assoc, ← hdec]
              simp only [List.cons_append, List.append_assoc, List.cons.injEq, true_and]
              rw [← List.append_assoc, List.takeWhile_append_dropWhile]
            rw [hseq2] at hstep
            conv_lhs => rw [quotedLoop_eq]
            simp only [hstep]
            rw [if_neg (by rcases hq with ⟨_, rfl⟩ | ⟨_, rfl⟩ <;> simp)]

/-- Scanning a quoted region to exhaustion: when the remaining input never
contains the closing quote character or an escape character, the loop
fails with exactly `UnexpectedEndOfInput` and an exhausted lexer state. -/
theorem quotedLoop_exhaust (idx : Nat) (qc : Char) (qt : Token)
    (hq : (qc = '\'' ∧ qt = Token.SingleQuote) ∨ (qc = '"' ∧ qt = Token.DoubleQuote)) :
    ∀ (pre m : List Char),
      (∀ x ∈ m, ¬(x = qc) ∧ ¬(x = '\\') ∧ x.utf8Size = 1) →
      quotedLoop (pre ++ m) idx qt (charIndicesFrom (utf8Len pre) m) =
        .err .UnexpectedEndOfInput [] := by
  have H : ∀ n (pre m : List Char), m.length < n →
      (∀ x ∈ m, ¬(x = qc) ∧ ¬(x = '\\') ∧ x.utf8Size = 1) →
      quotedLoop (pre ++ m) idx qt (charIndicesFrom (utf8Len pre) m) =
        .err .UnexpectedEndOfInput [] := by
    intro n
    induction n with
    | zero => intro pre m h; omega
    | succ a ih =>
      intro pre m hlen hm
      match m with
      | [] =>
        rw [quotedLoop_eq]
        rfl
      | c :: m0 =>
        obtain ⟨w, m', hsplit, hwne, hstep⟩ :=
          quotedLoop_step_consume pre idx qc qt hq c m0 []
            (fun d t' hd => by cases hd)
            (hm c (by simp)).1 (hm c (by simp)).2.1
            (fun x hx => (hm x hx).2.2)
        simp only [List.append_nil] at hstep
        rw [hstep]
        have hin : pre ++ c :: m0 = (pre ++ w) ++ m' := by
          rw [hsplit, ← List.append_assoc]
        have hofs : utf8Len pre + utf8Len w = utf8Len (pre ++ w) :=
          (utf8Len_append _ _).symm
        rw [hin, hofs]
        have hlens := congrArg List.length hsplit
        simp only [List.length_cons, List.length_append] at hlens
        have hwpos : 0 < w.length := by
          cases w
          · exact absurd rfl hwne
          · simp
        apply ih (pre ++ w) m' (by simp only [List.length_cons] at hlen; omega)
        intro x hx
        exact hm x (by rw [hsplit]; exact List.mem_append.2 (Or.inr hx))
  exact fun pre m hm => H (m.length + 1) pre m (by omega) hm

/-- Scanning across quoted content up to the closing quote: the loop
ignores every token of the content. -/
theorem quotedLoop_skip (idx : Nat) (qc : Char) (qt : Token)
    (hq : (qc = '\'' ∧ qt = Token.SingleQuote) ∨ (qc = '"' ∧ qt = Token.DoubleQuote))
    (b : List Char) :
    ∀ (pre m : List Char),
      (∀ x ∈ m, ¬(x = qc) ∧ ¬(x = '\\') ∧ x.utf8Size = 1) →
      quotedLoop (pre ++ (m ++ qc :: b)) idx qt
          (charIndicesFrom (utf8Len pre) (m ++ qc :: b)) =
        quotedLoop (pre ++ (m ++ qc :: b)) idx qt
          (charIndicesFrom (utf8Len pre + utf8Len m) (qc :: b)) := by
  have hqwd : is_word_character qc = false ∧ qc.isWhitespace = false := by
    rcases hq with ⟨rfl, _⟩ | ⟨rfl, _⟩ <;> exact ⟨by decide, by decide⟩
  have H : ∀ n (pre m : List Char), m.length < n →
      (∀ x ∈ m, ¬(x = qc) ∧ ¬(x = '\\') ∧ x.utf8Size = 1) →
      quotedLoop (pre ++ (m ++ qc :: b)) idx qt
          (charIndicesFrom (utf8Len pre) (m ++ qc :: b)) =
        quotedLoop (pre ++ (m ++ qc :: b)) idx qt
          (charIndicesFrom (utf8Len pre + utf8Len m) (qc :: b)) := by
    intro n
    induction n with
    | zero => intro pre m h; omega
    | succ a ih =>
      intro pre m hlen hm
      match m with
      | [] => simp [utf8Len_nil]
      | c :: m0 =>
        obtain ⟨w, m', hsplit, hwne, hstep⟩ :=
          quotedLoop_step_consume pre idx qc qt hq c m0 (qc :: b)
            (fun d t' hd => by cases hd; exact hqwd)
            (hm c (by simp)).1 (hm c (by simp)).2.1
            (fun x hx => (hm x hx).2.2)
        rw [hstep]
        have hm' : ∀ x ∈ m', ¬(x = qc) ∧ ¬(x = '\\') ∧ x.utf8Size = 1 :=
          fun x hx => hm x (by rw [hsplit]; exact List.mem_append.2 (Or.inr hx))
        have hin : pre ++ (c :: m0 ++ qc :: b) = (pre ++ w) ++ (m' ++ qc :: b) := by
          conv_lhs => rw [show c :: m0 ++ qc :: b = (w ++ m') ++ qc :: b from by rw [hsplit]]
          simp [List.append_assoc]
        have hofs : utf8Len pre + utf8Len w = utf8Len (pre ++ w) :=
          (utf8Len_append _ _).symm
        rw [hin, hofs]
        have hlens := congrArg List.length hsplit
        simp only [List.length_cons, List.length_append] at hlens
        have hwpos : 0 < w.length := by
          cases w
          · exact absurd rfl hwne
          · simp
        have hrec := ih (pre ++ w) m'
          (by simp only [List.length_cons] at hlen; omega) hm'
        rw [hrec]
        have hofs2 : utf8Len (pre ++ w) + utf8Len m'
            = utf8Len pre + utf8Len (c :: m0) := by
          rw [utf8Len_append]
          have := congrArg utf8Len hsplit
          rw [utf8Len_append] at this
          omega
        rw [hofs2]
  exact fun pre m hm => H (m.length + 1) pre m (by omega) hm

/-- A properly closed quoted argument at the front of the remaining input:
the Parser returns exactly the characters strictly between the two quote
characters and leaves the state just after the closing quote. -/
theorem parserNext_quoted (pre m b : List Char) (qc : Char) (qt : Token)
    (hq : (qc = '\'' ∧ qt = Token.SingleQuote) ∨ (qc = '"' ∧ qt = Token.DoubleQuote))
    (hm : ∀ x ∈ m, ¬(x = qc) ∧ ¬(x = '\\') ∧ x.utf8Size = 1) :
    parserNext (pre ++ qc :: (m ++ qc :: b))
        (charIndicesFrom (utf8Len pre) (qc :: (m ++ qc :: b))) =
      .ok m (charIndicesFrom (utf8Len pre + 1 + utf8Len m + 1) b) := by
  rcases hq with ⟨rfl, rfl⟩ | ⟨rfl, rfl⟩
  · rw [parserNext_eq]
    have hstep := lexNext_squote_pos pre (m ++ '\'' :: b)
    simp only [hstep]
    have hskip := quotedLoop_skip (utf8Len pre) '\'' .SingleQuote
      (Or.inl ⟨rfl, rfl⟩) b (pre ++ ['\'']) m hm
    have hconv1 : (pre ++ ['\'']) ++ (m ++ '\'' :: b)
        = pre ++ '\'' :: (m ++ '\'' :: b) := by simp
    have hconv2 : utf8Len (pre ++ ['\'']) = utf8Len pre + 1 := by
      have hsz : ('\'' : Char).utf8Size = 1 := by decide
      simp [utf8Len_append, utf8Len_cons, utf8Len_nil, hsz]
    rw [hconv1, hconv2] at hskip
    rw [hskip]
    conv_lhs => rw [quotedLoop_eq]
    have hclose := lexNext_squote_pos (pre ++ '\'' :: m) b
    have hconv3 : (pre ++ '\'' :: m) ++ '\'' :: b
        = pre ++ '\'' :: (m ++ '\'' :: b) := by simp
    have hconv4 : utf8Len (pre ++ '\'' :: m) = utf8Len pre + 1 + utf8Len m := by
      have hsz : ('\'' : Char).utf8Size = 1 := by decide
      simp [utf8Len_append, utf8Len_cons, hsz]
      omega
    rw [hconv3, hconv4] at hclose
    simp only [hclose]
    rw [if_true]
    have hkey := byteSlice_eq (pre ++ ['\'']) m ('\'' :: b)
    have hconv5 : (pre ++ ['\'']) ++ m ++ '\'' :: b
        = pre ++ '\'' :: (m ++ '\'' :: b) := by simp
    rw [hconv5, hconv2] at hkey
    rw [hkey]
  · rw [parserNext_eq]
    have hstep := lexNext_dquote_pos pre (m ++ '"' :: b)
    simp only [hstep]
    have hskip := quotedLoop_skip (utf8Len pre) '"' .DoubleQuote
      (Or.inr ⟨rfl, rfl⟩) b (pre ++ ['"']) m hm
    have hconv1 : (pre ++ ['"']) ++ (m ++ '"' :: b)
        = pre ++ '"' :: (m ++ '"' :: b) := by simp
    have hconv2 : utf8Len (pre ++ ['"']) = utf8Len pre + 1 := by
      have hsz : ('"' : Char).utf8Size = 1 := by decide
      simp [utf8Len_append, utf8Len_cons, utf8Len_nil, hsz]
    rw [hconv1, hconv2] at hskip
    rw [hskip]
    conv_lhs => rw [quotedLoop_eq]
    have hclose := lexNext_dquote_pos (pre ++ '"' :: m) b
    have hconv3 : (pre ++ '"' :: m) ++ '"' :: b
        = pre ++ '"' :: (m ++ '"' :: b) := by simp
    have hconv4 : utf8Len (pre ++ '"' :: m) = utf8Len pre + 1 + utf8Len m := by
      have hsz : ('"' : Char).utf8Size = 1 := by decide
      simp [utf8Len_append, utf8Len_cons, hsz]
      omega
    rw [hconv3, hconv4] at hclose
    simp only [hclose]
    rw [if_true]
    have hkey := byteSlice_eq (pre ++ ['"']) m ('"' :: b)
    have hconv5 : (pre ++ ['"']) ++ m ++ '"' :: b
        = pre ++ '"' :: (m ++ '"' :: b) := by simp
    rw [hconv5, hconv2] at hkey
    rw [hkey]

/-- A quote character immediately following a word run: the pending run is
not emitted; the pull yields `UnexpectedToken` at the quote's own offset
carrying the quote's text, and the state resumes just after the quote. -/
theorem parserNext_word_quote (pre u : List Char) (cl qc : Char) (s : List Char)
    (hu : ∀ c ∈ u ++ [cl], is_word_character c = true) (hcl : cl.utf8Size = 1)
    (hq : qc = '\'' ∨ qc = '"') :
    parserNext (pre ++ ((u ++ [cl]) ++ qc :: s))
        (charIndicesFrom (utf8Len pre) ((u ++ [cl]) ++ qc :: s)) =
      .err (.UnexpectedToken (utf8Len pre + utf8Len (u ++ [cl])) [qc])
        (charIndicesFrom (utf8Len pre + utf8Len (u ++ [cl]) + 1) s) := by
  have hv : ∀ d v', qc :: s = d :: v' → is_word_character d = false := by
    intro d v' hd
    cases hd
    rcases hq with rfl | rfl <;> decide
  have hstep := lexNext_word_pos pre u cl (qc :: s) hu hcl hv
  rw [parserNext_eq]
  simp only [hstep]
  conv_lhs => rw [unquotedLoop_eq]
  have hconv2 : utf8Len (pre ++ (u ++ [cl]))
      = utf8Len pre + utf8Len (u ++ [cl]) := utf8Len_append _ _
  rcases hq with rfl | rfl
  · have hqs := lexNext_squote_pos (pre ++ (u ++ [cl])) s
    have hconv1 : (pre ++ (u ++ [cl])) ++ '\'' :: s
        = pre ++ ((u ++ [cl]) ++ '\'' :: s) := by simp
    rw [hconv1, hconv2] at hqs
    simp only [hqs, Token.len]
    have hkey := byteSlice_eq (pre ++ (u ++ [cl])) ['\''] s
    have hconv3 : (pre ++ (u ++ [cl])) ++ ['\''] ++ s
        = pre ++ ((u ++ [cl]) ++ '\'' :: s) := by simp
    have hlen1 : utf8Len ['\''] = 1 := by decide
    rw [hconv3, hconv2, hlen1] at hkey
    rw [hkey]
  · have hqs := lexNext_dquote_pos (pre ++ (u ++ [cl])) s
    have hconv1 : (pre ++ (u ++ [cl])) ++ '"' :: s
        = pre ++ ((u ++ [cl]) ++ '"' :: s) := by simp
    rw [hconv1, hconv2] at hqs
    simp only [hqs, Token.len]
    have hkey := byteSlice_eq (pre ++ (u ++ [cl])) ['"'] s
    have hconv3 : (pre ++ (u ++ [cl])) ++ ['"'] ++ s
        = pre ++ ((u ++ [cl]) ++ '"' :: s) := by simp
    have hlen1 : utf8Len ['"'] = 1 := by decide
    rw [hconv3, hconv2, hlen1] at hkey
    rw [hkey]

/-- Whether an iterator item is an error. -/
def Res.isErr {α : Type} : Res α → Bool
  | .err _ => true
  | .ok _ => false

/-- The `Ok` payloads of a Lexer item list, in order. -/
def okToks : List (Res (Nat × Token)) → List (Nat × Token)
  | [] => []
  | .ok it :: rest => it :: okToks rest
  | .err _ :: rest => okToks rest

/-- Concatenation of the texts of a token list, in order. -/
def concatToks (l : List (Nat × Token)) : List Char :=
  (l.map (fun it => tokenText it.2)).flatten

/-- The token offsets are consecutive from `n`: every token starts exactly
where the previous one ended, and every token text is nonempty. -/
def consecFrom : Nat → List (Nat × Token) → Prop
  | _, [] => True
  | n, (i, t) :: rest =>
      i = n ∧ tokenText t ≠ [] ∧ consecFrom (n + utf8Len (tokenText t)) rest

instance : ∀ n l, Decidable (consecFrom n l)
  | _, [] => .isTrue trivial
  | n, (i, t) :: rest =>
    have : Decidable (consecFrom (n + utf8Len (tokenText t)) rest) :=
      instDecidableConsecFrom _ _
    instDecidableAnd

theorem charIndicesFrom_eq_nil {ofs : Nat} {s : List Char}
    (h : charIndicesFrom ofs s = []) : s = [] := by
  match s with
  | [] => rfl
  | c :: cs => simp [charIndicesFrom] at h

theorem consecFrom_lb {l : List (Nat × Token)} :
    ∀ {n}, consecFrom n l → ∀ x ∈ l, n ≤ x.1 := by
  induction l with
  | nil => intro n _ x hx; simp at hx
  | cons hd tl ih =>
    intro n h x hx
    obtain ⟨i, t⟩ := hd
    obtain ⟨rfl, hne, hrec⟩ := h
    rcases List.mem_cons.1 hx with rfl | hx2
    · exact le_refl _
    · have := ih hrec x hx2
      omega

theorem consecFrom_pairwise {l : List (Nat × Token)} :
    ∀ {n}, consecFrom n l →
      List.Pairwise (fun a b : Nat × Token =>
        a.1 + utf8Len (tokenText a.2) ≤ b.1 ∧ a.1 < b.1) l := by
  induction l with
  | nil => intro n _; exact List.Pairwise.nil
  | cons hd tl ih =>
    intro n h
    obtain ⟨i, t⟩ := hd
    obtain ⟨rfl, hne, hrec⟩ := h
    refine List.Pairwise.cons ?_ (ih hrec)
    intro y hy
    have hlb := consecFrom_lb hrec y hy
    have hpos := utf8Len_pos hne
    exact ⟨(by omega : i + utf8Len (tokenText t) ≤ y.1), (by omega : i < y.1)⟩

/-- Core of the Lexer round-trip: an error-free complete run over a
genuine state produces tokens whose texts concatenate to exactly the
remaining characters, with consecutive (hence strictly increasing,
non-overlapping) offsets. -/
theorem lexAllFrom_ok_spec :
    ∀ n (pre s : List Char) (items : List (Res (Nat × Token))),
      s.length < n →
      lexAllFrom (pre ++ s) (charIndicesFrom (utf8Len pre) s) = some items →
      (∀ i ∈ items, i.isErr = false) →
      concatToks (okToks items) = s ∧ consecFrom (utf8Len pre) (okToks items) := by
  intro n
  induction n with
  | zero => intro pre s items h; omega
  | succ a ih =>
    intro pre s items hlen hall hok
    rw [lexAllFrom_eq] at hall
    rcases hx : lexNext (pre ++ s) (charIndicesFrom (utf8Len pre) s) with
      _ | _ | ⟨i, t, rest⟩ | ⟨e, rest⟩
    · rw [hx] at hall; cases hall
    · rw [hx] at hall
      obtain rfl : ([] : List (Res (Nat × Token))) = items := Option.some.inj hall
      have hs : s = [] := charIndicesFrom_eq_nil (lexNext_eos_iff.1 hx)
      subst hs
      exact ⟨rfl, trivial⟩
    · simp only [hx] at hall
      obtain ⟨items', hrec, rfl⟩ :
          ∃ items', lexAllFrom (pre ++ s) rest = some items' ∧
            items = .ok (i, t) :: items' := by
        rcases hmap : lexAllFrom (pre ++ s) rest with _ | items'
        · rw [hmap] at hall; simp at hall
        · rw [hmap] at hall
          simp only [Option.map_some', Option.some.injEq] at hall
          exact ⟨items', rfl, hall.symm⟩
      obtain ⟨rfl, s', hdecomp, hne, hrest⟩ := lexNext_tok_spec hx
      have hin : pre ++ s = (pre ++ tokenText t) ++ s' := by
        rw [hdecomp, List.append_assoc]
      have hofs : utf8Len pre + utf8Len (tokenText t)
          = utf8Len (pre ++ tokenText t) := (utf8Len_append _ _).symm
      rw [hrest, hin, hofs] at hrec
      have hlens : s'.length < a := by
        have := congrArg List.length hdecomp
        simp only [List.length_append] at this
        have hpos : 0 < (tokenText t).length := by
          cases htt : tokenText t
          · exact absurd htt hne
          · simp
        omega
      have hspec := ih (pre ++ tokenText t) s' items' hlens hrec
        (fun x hx2 => hok x (List.mem_cons.2 (Or.inr hx2)))
      constructor
      · show tokenText t ++ concatToks (okToks items') = s
        rw [hspec.1, ← hdecomp]
      · refine ⟨rfl, hne, ?_⟩
        rw [← hofs] at hspec
        exact hspec.2
    · simp only [hx] at hall
      exfalso
      rcases hmap : lexAllFrom (pre ++ s) rest with _ | items'
      · rw [hmap] at hall; simp at hall
      · rw [hmap] at hall
        simp only [Option.map_some', Option.some.injEq] at hall
        have hitems : items = .err e :: items' := hall.symm
        have := hok (.err e) (by rw [hitems]; simp)
        simp [Res.isErr] at this

/-- Modelled from the spec: the result the convenience entry point is
specified to produce — "either the complete ordered list of arguments or
the first error encountered (discarding any arguments that would have
followed)".  This definition follows the spec's words; `split` itself is
translated from `src/lib.rs` and is compared against it below. -/
def firstErrorOrFullList : List (Res (List Char)) → Res (List (List Char))
  | [] => .ok []
  | .err e :: _ => .err e
  | .ok a :: rest =>
    match firstErrorOrFullList rest with
    | .ok l => .ok (a :: l)
    | .err e => .err e

/-- `Parser::collect` agrees with the first-error-or-full-list reading of
the item sequence, whenever the iteration does not panic. -/
theorem collectSplit_spec :
    ∀ n (input : List Char) (cs : List (Nat × Char)) (items : List (Res (List Char))),
      cs.length < n →
      parseAllFrom input cs = some items →
      collectSplit input cs = some (firstErrorOrFullList items) := by
  intro n
  induction n with
  | zero => intro input cs items h; omega
  | succ a ih =>
    intro input cs items hlen hpa
    rw [parseAllFrom_eq] at hpa
    rw [collectSplit_eq]
    rcases hx : parserNext input cs with _ | _ | ⟨sa, rest⟩ | ⟨e, rest⟩
    · rw [hx] at hpa; cases hpa
    · rw [hx] at hpa
      obtain rfl : ([] : List (Res (List Char))) = items := Option.some.inj hpa
      rfl
    · simp only [hx] at hpa ⊢
      obtain ⟨items', hrec, rfl⟩ :
          ∃ items', parseAllFrom input rest = some items' ∧
            items = .ok sa :: items' := by
        rcases hmap : parseAllFrom input rest with _ | items'
        · rw [hmap] at hpa; simp at hpa
        · rw [hmap] at hpa
          simp only [Option.map_some', Option.some.injEq] at hpa
          exact ⟨items', rfl, hpa.symm⟩
      have hr := parserNext_ok_length hx
      have hcol := ih input rest items' (by omega) hrec
      rw [hcol]
      show (match some (firstErrorOrFullList items') with
            | some (.ok args) => some (.ok (sa :: args))
            | other => other)
          = some (firstErrorOrFullList (.ok sa :: items'))
      rcases hfe : firstErrorOrFullList items' with l | e
      · simp only [firstErrorOrFullList, hfe]
      · simp only [firstErrorOrFullList, hfe]
    · simp only [hx] at hpa ⊢
      obtain ⟨items', hrec, rfl⟩ :
          ∃ items', parseAllFrom input rest = some items' ∧
            items = .err e :: items' := by
        rcases hmap : parseAllFrom input rest with _ | items'
        · rw [hmap] at hpa; simp at hpa
        · rw [hmap] at hpa
          simp only [Option.map_some', Option.some.injEq] at hpa
          exact ⟨items', rfl, hpa.symm⟩
      rfl

/-! ## Claims -/

/-- C1, counterexample: for input `a"` the Parser yields exactly one item,
the `UnexpectedToken` error at the quote — the word run before the quote
is not additionally emitted as a successful argument, contradicting the
claim that the run is emitted as one successful argument besides the
error. -/
theorem shtring_c1_counterexample :
    parseAll ['a', '"'] = some [.err (.UnexpectedToken 1 ['"'])] ∧
    Res.ok ['a'] ∉ [(Res.err (Error.UnexpectedToken 1 ['"']) : Res (List Char))] := by
  decide

/-- C1, amended: when a quote character immediately follows word
characters with no intervening whitespace, the pull assembling the run
yields `Err(UnexpectedToken)` at the quote's own offset carrying the
quote's text — the run itself is discarded, not emitted as an argument —
and iteration resumes just after the quote, yielding any further items
from there.  (Stated for runs ending in a single-byte code point; a
multi-byte final code point instead hits the Lexer's slice panic, see
C9.) -/
theorem shtring_c1_amended (pre u : List Char) (cl qc : Char) (s : List Char)
    (hu : ∀ c ∈ u ++ [cl], is_word_character c = true) (hcl : cl.utf8Size = 1)
    (hq : qc = '\'' ∨ qc = '"') :
    parserNext (pre ++ ((u ++ [cl]) ++ qc :: s))
        (charIndicesFrom (utf8Len pre) ((u ++ [cl]) ++ qc :: s)) =
      .err (.UnexpectedToken (utf8Len pre + utf8Len (u ++ [cl])) [qc])
        (charIndicesFrom (utf8Len pre + utf8Len (u ++ [cl]) + 1) s)
    ∧ parseAllFrom (pre ++ ((u ++ [cl]) ++ qc :: s))
        (charIndicesFrom (utf8Len pre) ((u ++ [cl]) ++ qc :: s)) =
      (parseAllFrom (pre ++ ((u ++ [cl]) ++ qc :: s))
          (charIndicesFrom (utf8Len pre + utf8Len (u ++ [cl]) + 1) s)).map
        (fun l => .err (.UnexpectedToken (utf8Len pre + utf8Len (u ++ [cl])) [qc]) :: l) := by
  have h1 := parserNext_word_quote pre u cl qc s hu hcl hq
  refine ⟨h1, ?_⟩
  conv_lhs => rw [parseAllFrom_eq]
  simp only [h1]

/-- C1, witness for the amended theorem at input `a" c`. -/
theorem shtring_c1_amended_witness :
    parserNext ([] ++ (([] ++ ['a']) ++ '"' :: [' ', 'c']))
        (charIndicesFrom (utf8Len []) (([] ++ ['a']) ++ '"' :: [' ', 'c'])) =
      .err (.UnexpectedToken (utf8Len [] + utf8Len ([] ++ ['a'])) ['"'])
        (charIndicesFrom (utf8Len [] + utf8Len ([] ++ ['a']) + 1) [' ', 'c']) :=
  (shtring_c1_amended [] [] 'a' '"' [' ', 'c'] (by decide) (by decide)
    (Or.inr rfl)).1

/-- C2: iterating the Parser over `a b c"` yields exactly
`[Ok "a", Ok "b", Err(UnexpectedToken(5, "\""))]`, in this order, with no
item after the error. -/
theorem shtring_c2 :
    parseAll ['a', ' ', 'b', ' ', 'c', '"'] =
      some [.ok ['a'], .ok ['b'], .err (.UnexpectedToken 5 ['"'])] := by
  decide

/-- C3: while scanning a quoted argument, (1) any token other than the
opening token is skipped as ordinary content (in particular a quote of the
other type), (2) a token equal to the opening quote closes the argument
with the slice strictly between the quotes, (3) if the remaining input
never contains the closing quote character (nor an escape), the loop
yields `Err(UnexpectedEndOfInput)` with the lexer exhausted, and (4) every
error of the loop is `UnexpectedEndOfInput` with exhausted state, after
which the next pull yields the terminal marker — so no partial content and
nothing further is produced for that argument. -/
theorem shtring_c3 (input : List Char) (idx : Nat) (qc : Char) (qt : Token)
    (hq : (qc = '\'' ∧ qt = Token.SingleQuote) ∨ (qc = '"' ∧ qt = Token.DoubleQuote)) :
    (∀ cs cont t rest, lexNext input cs = .tok cont t rest → t ≠ qt →
        quotedLoop input idx qt cs = quotedLoop input idx qt rest)
    ∧ (∀ cs cont rest, lexNext input cs = .tok cont qt rest →
        quotedLoop input idx qt cs =
          (match byteSlice input (idx + 1) cont with
           | some w => .ok w rest
           | none => .panic))
    ∧ (∀ pre m, input = pre ++ m →
        (∀ x ∈ m, ¬(x = qc) ∧ ¬(x = '\\') ∧ x.utf8Size = 1) →
        quotedLoop input idx qt (charIndicesFrom (utf8Len pre) m) =
          .err .UnexpectedEndOfInput [])
    ∧ (∀ cs e rest, quotedLoop input idx qt cs = .err e rest →
        e = .UnexpectedEndOfInput ∧ rest = [] ∧ parserNext input [] = .eos) := by
  refine ⟨?_, ?_, ?_, ?_⟩
  · intro cs cont t rest h hne
    conv_lhs => rw [quotedLoop_eq]
    simp only [h]
    rw [if_neg hne]
  · intro cs cont rest h
    conv_lhs => rw [quotedLoop_eq]
    simp only [h]
    simp
  · intro pre m hinput hm
    subst hinput
    exact quotedLoop_exhaust idx qc qt hq pre m hm
  · intro cs e rest h
    have hspec := quotedLoop_err_spec input idx qt cs e rest h
    refine ⟨hspec.1, hspec.2, ?_⟩
    rw [parserNext_eq]
    rfl

/-- C3, witness: the mismatched-quote input `"a'` exhausts the input
without closing and yields exactly `UnexpectedEndOfInput`. -/
theorem shtring_c3_witness :
    quotedLoop ['"', 'a', '\''] 0 Token.DoubleQuote
        (charIndicesFrom (utf8Len ['"']) ['a', '\'']) =
      .err .UnexpectedEndOfInput [] :=
  (shtring_c3 ['"', 'a', '\''] 0 '"' Token.DoubleQuote
    (Or.inr ⟨rfl, rfl⟩)).2.2.1 ['"'] ['a', '\''] rfl (by decide)

/-- Whenever the quoted-argument loop returns a slice, that slice was
computed as the byte region strictly between the opening quote (at `idx`,
excluded via `idx + 1`) and a closing token equal to the opening one. -/
theorem quotedLoop_ok_spec (input : List Char) (idx : Nat) (opening : Token) :
    ∀ cs s rest, quotedLoop input idx opening cs = .ok s rest →
      ∃ cs2 cont, lexNext input cs2 = .tok cont opening rest ∧
        byteSlice input (idx + 1) cont = some s := by
  have H : ∀ n cs, cs.length < n → ∀ s rest,
      quotedLoop input idx opening cs = .ok s rest →
        ∃ cs2 cont, lexNext input cs2 = .tok cont opening rest ∧
          byteSlice input (idx + 1) cont = some s := by
    intro n
    induction n with
    | zero => intro cs h; omega
    | succ a ih =>
      intro cs hlen s rest h
      rw [quotedLoop_eq] at h
      rcases hx : lexNext input cs with _ | _ | ⟨i, t, r⟩ | ⟨e, r⟩
      · simp only [hx] at h; cases h
      · simp only [hx] at h; cases h
      · simp only [hx] at h
        split_ifs at h with hqe
        · rcases hbs : byteSlice input (idx + 1) i with _ | w
          · rw [hbs] at h; cases h
          · rw [hbs] at h
            cases h
            subst hqe
            exact ⟨cs, i, hx, hbs⟩
        · exact ih r (by have := lexNext_tok_length hx; omega) s rest h
      · simp only [hx] at h; cases h
  exact fun cs s rest h => H (cs.length + 1) cs (by omega) s rest h

/-- C4: a properly closed quoted argument returns exactly the byte region
strictly between the opening and closing quote characters (both excluded),
byte for byte — embedded whitespace and embedded quotes of the other type
are allowed in the content and returned verbatim — and scanning resumes
just after the closing quote.  The second conjunct covers every `ok`
outcome of the quoted-argument loop: the returned slice is always the byte
region strictly between the opening quote and the closing token. -/
theorem shtring_c4 (pre m b : List Char) (qc : Char) (qt : Token)
    (hq : (qc = '\'' ∧ qt = Token.SingleQuote) ∨ (qc = '"' ∧ qt = Token.DoubleQuote))
    (hm : ∀ x ∈ m, ¬(x = qc) ∧ ¬(x = '\\') ∧ x.utf8Size = 1) :
    (parserNext (pre ++ qc :: (m ++ qc :: b))
        (charIndicesFrom (utf8Len pre) (qc :: (m ++ qc :: b))) =
      .ok m (charIndicesFrom (utf8Len pre + 1 + utf8Len m + 1) b))
    ∧ (∀ idx cs s rest,
        quotedLoop (pre ++ qc :: (m ++ qc :: b)) idx qt cs = .ok s rest →
          ∃ cs2 cont,
            lexNext (pre ++ qc :: (m ++ qc :: b)) cs2 = .tok cont qt rest ∧
            byteSlice (pre ++ qc :: (m ++ qc :: b)) (idx + 1) cont = some s) :=
  ⟨parserNext_quoted pre m b qc qt hq hm,
    fun idx cs s rest h => quotedLoop_ok_spec _ idx qt cs s rest h⟩

/-- C4, witness: `"b 'c"` returns the content `b 'c` with its embedded
whitespace and embedded single quote, byte for byte. -/
theorem shtring_c4_witness :
    parserNext ([] ++ '"' :: (['b', ' ', '\'', 'c'] ++ '"' :: []))
        (charIndicesFrom (utf8Len []) ('"' :: (['b', ' ', '\'', 'c'] ++ '"' :: []))) =
      .ok ['b', ' ', '\'', 'c']
        (charIndicesFrom (utf8Len [] + 1 + utf8Len ['b', ' ', '\'', 'c'] + 1) []) :=
  (shtring_c4 [] ['b', ' ', '\'', 'c'] [] '"' Token.DoubleQuote
    (Or.inr ⟨rfl, rfl⟩) (by decide)).1

/-- C5: the Parser's iteration never terminates early because of an error:
(1) after an error item the item sequence continues with exactly the items
produced from the continuation state, and (2) a pull yields the terminal
`None` marker exactly when nothing but whitespace remains of the input —
never while an argument or error is still pending. -/
theorem shtring_c5 (input : List Char) :
    (∀ cs e rest, parserNext input cs = .err e rest →
        parseAllFrom input cs =
          (parseAllFrom input rest).map (fun l => .err e :: l))
    ∧ (∀ pre s, input = pre ++ s →
        (parserNext input (charIndicesFrom (utf8Len pre) s) = .eos ↔
          ∀ c ∈ s, c.isWhitespace = true)) := by
  constructor
  · intro cs e rest h
    conv_lhs => rw [parseAllFrom_eq]
    simp only [h]
  · intro pre s hinput
    subst hinput
    exact parserNext_eos_iff pre s

/-- C5, witness: on `a" c` the error at the quote is followed by the items
of the continuation state (recovery), per the theorem's first part. -/
theorem shtring_c5_witness :
    parseAllFrom ['a', '"', ' ', 'c'] (charIndices ['a', '"', ' ', 'c']) =
      (parseAllFrom ['a', '"', ' ', 'c'] [(2, ' '), (3, 'c')]).map
        (fun l => .err (.UnexpectedToken 1 ['"']) :: l) :=
  (shtring_c5 ['a', '"', ' ', 'c']).1 (charIndices ['a', '"', ' ', 'c'])
    (.UnexpectedToken 1 ['"']) [(2, ' '), (3, 'c')] (by decide)

/-- C6: `split` pulls the Parser and returns either the complete ordered
list of all argument slices (when no pull yields an error) or the first
error the Parser yields, discarding any arguments after it — formally,
whenever the iteration completes without a panic, `split` returns exactly
the first-error-or-full-list reading of the Parser's item sequence. -/
theorem shtring_c6 (input : List Char) (items : List (Res (List Char)))
    (h : parseAll input = some items) :
    split input = some (firstErrorOrFullList items) := by
  rw [split_eq]
  exact collectSplit_spec (input.length + 1) input (charIndices input) items
    (by rw [charIndices, charIndicesFrom_length]; omega) h

/-- C6, witness: `a b c"` splits to the first error, discarding nothing
before it and everything after it. -/
theorem shtring_c6_witness :
    split ['a', ' ', 'b', ' ', 'c', '"'] =
      some (.err (.UnexpectedToken 5 ['"'])) :=
  shtring_c6 ['a', ' ', 'b', ' ', 'c', '"']
    [.ok ['a'], .ok ['b'], .err (.UnexpectedToken 5 ['"'])] (by decide)

/-- C7: the two documented escape behaviours hold for single-byte escaped
code points (`\` as last code point errors with `UnexpectedEndOfInput`, and
`\t` yields an `Escape` token spanning both code points), but for a
multi-byte escaped code point the claim fails: the slice `idx..cont + 1`
ends one byte into the escaped character, which is not a character
boundary, so the pull for `\é` panics instead of yielding `Escape("\é")`. -/
theorem shtring_c7_bug :
    lexNext ['\\'] (charIndices ['\\']) = .err .UnexpectedEndOfInput []
    ∧ lexNext ['\\', 't'] (charIndices ['\\', 't']) =
        .tok 0 (.Escape ['\\', 't']) []
    ∧ lexNext ['\\', 'é'] (charIndices ['\\', 'é']) = .panic := by
  decide

/-- C8, counterexample: on input `\` the Lexer yields one error item and
no token, so the concatenation of all produced token slices is empty and
does not reconstruct the input. -/
theorem shtring_c8_counterexample :
    lexAll ['\\'] = some [Res.err Error.UnexpectedEndOfInput]
    ∧ concatToks (okToks [Res.err Error.UnexpectedEndOfInput]) ≠ ['\\'] := by
  decide

/-- C8, amended: for any input on which the Lexer runs to exhaustion
without yielding an error item (and without a slice panic), concatenating
the slices of all produced tokens in order reconstructs the input exactly,
and the tokens' start offsets are strictly increasing with no two tokens
overlapping. -/
theorem shtring_c8_amended (input : List Char) (items : List (Res (Nat × Token)))
    (h : lexAll input = some items) (hok : ∀ i ∈ items, i.isErr = false) :
    concatToks (okToks items) = input
    ∧ List.Pairwise (fun a b : Nat × Token =>
        a.1 + utf8Len (tokenText a.2) ≤ b.1 ∧ a.1 < b.1) (okToks items) := by
  rw [lexAll_eq] at h
  have hspec := lexAllFrom_ok_spec (input.length + 1) [] input items
    (by omega) h hok
  exact ⟨hspec.1, consecFrom_pairwise hspec.2⟩

/-- C8, witness for the amended theorem at input `a b`. -/
theorem shtring_c8_amended_witness :
    concatToks (okToks
        [Res.ok (0, Token.Word ['a']), Res.ok (1, Token.Whitespace [' ']),
          Res.ok (2, Token.Word ['b'])]) = ['a', ' ', 'b']
    ∧ List.Pairwise (fun a b : Nat × Token =>
        a.1 + utf8Len (tokenText a.2) ≤ b.1 ∧ a.1 < b.1)
      (okToks
        [Res.ok (0, Token.Word ['a']), Res.ok (1, Token.Whitespace [' ']),
          Res.ok (2, Token.Word ['b'])]) :=
  shtring_c8_amended ['a', ' ', 'b']
    [Res.ok (0, Token.Word ['a']), Res.ok (1, Token.Whitespace [' ']),
      Res.ok (2, Token.Word ['b'])] (by decide) (by decide)

/-- C9: the claim that every Lexer pull returns normally fails: on input
`é` the Word arm computes the slice `0..1`, whose end lies inside the
two-byte character `é` and is not a character boundary, so the pull
panics. -/
theorem shtring_c9_bug :
    lexNext ['é'] (charIndices ['é']) = .panic := by
  decide

/-- Whether a Lexer step yielded an `UnknownCharacter` token. -/
def lexOutHasUnknown : LexOut → Bool
  | .tok _ (.UnknownCharacter _) _ => true
  | _ => false

/-- C10: no Lexer pull ever yields an `UnknownCharacter` token, on any
input and any state: every code point that is not a quote, not the escape
character, and not whitespace satisfies `is_word_character`, so the
fallback arm of `Lexer::next` is unreachable. -/
theorem shtring_c10 (input : List Char) (cs : List (Nat × Char)) :
    lexOutHasUnknown (lexNext input cs) = false := by
  match cs with
  | [] => rfl
  | (idx, chr) :: rest =>
    simp only [lexNext]
    split_ifs with h1 h2 h3 h4 h5
    · rfl
    · rfl
    · match rest with
      | [] => rfl
      | (cont, c2) :: rest2 =>
        simp only
        split <;> rfl
    · split <;> rfl
    · split <;> rfl
    · exact absurd (is_word_character_of_classes h1 h2 h3 (by simpa using h4)) h5
